import Mathlib

/-!
Verification of the link/media resolution engine of the obsidian-to-html
plugin (src/services/link-resolver.ts), via a shallow embedding into Lean.
Strings are modelled as `String` (a wrapper around `List Char`); the
JavaScript string/regex operations used by the source are embedded as
executable functions on `List Char`.
-/

namespace ObsidianHtml

/-! ## Generic string helpers (models of JS string primitives) -/

/-- Does the list `l` start with the pattern `pat`? (Model of JS `startsWith`.) -/
def startsL : List Char → List Char → Bool
  | [], _ => true
  | _ :: _, [] => false
  | p :: ps, c :: cs => p = c && startsL ps cs

/-- Does `l` end with `pat`? (Model of JS `endsWith`.) -/
def endsWithL (pat l : List Char) : Bool :=
  startsL pat.reverse l.reverse

/-- Does `l` contain `pat` as a contiguous substring? (Model of JS `includes`.) -/
def containsL (pat : List Char) : List Char → Bool
  | [] => startsL pat []
  | c :: rest => startsL pat (c :: rest) || containsL pat rest

/-- The whitespace class trimmed by JS `String.prototype.trim`. -/
def jsWhite (c : Char) : Bool :=
  c = ' ' || c = '\t' || c = '\n' || c = '\r' || c = '\x0b' || c = '\x0c'

/-- Model of JS `String.prototype.trim`. -/
def jsTrim (l : List Char) : List Char :=
  ((l.dropWhile jsWhite).reverse.dropWhile jsWhite).reverse

/-- Model of JS `String.prototype.split(sep)` for a one-character separator:
always returns a nonempty list of fields; `"".split(s) = [""]`. -/
def splitOnChar (sep : Char) : List Char → List (List Char)
  | [] => [[]]
  | c :: rest =>
    match splitOnChar sep rest with
    | [] => [[c]]
    | g :: gs => if c = sep then [] :: g :: gs else (c :: g) :: gs

/-- Model of JS `Array.prototype.join(sep)`. -/
def joinSep (sep : List Char) : List (List Char) → List Char
  | [] => []
  | [x] => x
  | x :: y :: rest => x ++ sep ++ joinSep sep (y :: rest)

/-- Model of JS `String.prototype.repeat(n)`. -/
def repeatL (l : List Char) : Nat → List Char
  | 0 => []
  | n + 1 => l ++ repeatL l n

/-- ASCII lower-casing of a whole list (model of JS `toLowerCase` restricted
to the ASCII range, which is all the source exercises). -/
def toLowerL (l : List Char) : List Char := l.map Char.toLower

/-! ## Model of JS `parseInt` -/

/-- Is `c` a digit of the given radix (10 or 16)? -/
def isRadixDigit (radix : Nat) (c : Char) : Bool :=
  if radix = 16 then c.isDigit || ('a' ≤ c && c ≤ 'f') || ('A' ≤ c && c ≤ 'F')
  else c.isDigit

/-- Numeric value of a (radix ≤ 16) digit character. -/
def digitVal (c : Char) : Nat :=
  if c.isDigit then c.toNat - 48
  else if 'a' ≤ c && c ≤ 'f' then c.toNat - 87
  else if 'A' ≤ c && c ≤ 'F' then c.toNat - 55
  else 0

/-- Natural number denoted by a digit list in the given radix. -/
def natOfDigits (radix : Nat) (ds : List Char) : Nat :=
  ds.foldl (fun acc d => acc * radix + digitVal d) 0

/-- Model of JS `parseInt(s)` (radix argument omitted, as in the source):
skips leading whitespace, reads an optional sign, switches to base 16 on a
`0x`/`0X` prefix, then parses the longest digit run; `none` models `NaN`. -/
def parseIntJS (s : List Char) : Option Int :=
  let s1 := s.dropWhile jsWhite
  let (sign, s2) : Int × List Char :=
    match s1 with
    | '-' :: r => (-1, r)
    | '+' :: r => (1, r)
    | _ => (1, s1)
  let (radix, s3) : Nat × List Char :=
    match s2 with
    | '0' :: 'x' :: r => (16, r)
    | '0' :: 'X' :: r => (16, r)
    | _ => (10, s2)
  let ds := s3.takeWhile (isRadixDigit radix)
  if ds.isEmpty then none else some (sign * (natOfDigits radix ds : Int))

/-! ## Models of JS `encodeURIComponent` / `decodeURIComponent` -/

/-- Characters left unescaped by `encodeURIComponent`. -/
def uriUnreserved (c : Char) : Bool :=
  c.isAlpha || c.isDigit ||
    c = '-' || c = '_' || c = '.' || c = '!' || c = '~' || c = '*' ||
    c = '\'' || c = '(' || c = ')'

/-- UTF-8 bytes of a character. -/
def utf8Bytes (c : Char) : List Nat :=
  let n := c.toNat
  if n < 128 then [n]
  else if n < 2048 then [192 + n / 64, 128 + n % 64]
  else if n < 65536 then [224 + n / 4096, 128 + (n / 64) % 64, 128 + n % 64]
  else [240 + n / 262144, 128 + (n / 4096) % 64, 128 + (n / 64) % 64, 128 + n % 64]

/-- Upper-case hex digit for a value below 16. -/
def hexDigitChar (n : Nat) : Char :=
  if n < 10 then Char.ofNat (48 + n) else Char.ofNat (55 + n)

/-- Percent-escape of one byte, e.g. `%2F`. -/
def byteHex (b : Nat) : List Char :=
  ['%', hexDigitChar (b / 16), hexDigitChar (b % 16)]

/-- Model of JS `encodeURIComponent`: unreserved characters pass through,
every other character becomes the percent-escapes of its UTF-8 bytes. -/
def encodeURIComponent (l : List Char) : List Char :=
  (l.map (fun c =>
    if uriUnreserved c then [c] else ((utf8Bytes c).map byteHex).flatten)).flatten

/-- Value of a hex digit character, if it is one. -/
def hexVal (c : Char) : Option Nat :=
  if c.isDigit then some (c.toNat - 48)
  else if 'a' ≤ c && c ≤ 'f' then some (c.toNat - 87)
  else if 'A' ≤ c && c ≤ 'F' then some (c.toNat - 55)
  else none

/-- First pass of percent-decoding: `%XX` pairs become bytes (`Sum.inr`),
everything else stays a character (`Sum.inl`). -/
def uriTokens : List Char → List (Char ⊕ Nat)
  | [] => []
  | '%' :: a :: b :: rest2 =>
    match hexVal a, hexVal b with
    | some ha, some hb => Sum.inr (16 * ha + hb) :: uriTokens rest2
    | _, _ => Sum.inl '%' :: uriTokens (a :: b :: rest2)
  | c :: rest => Sum.inl c :: uriTokens rest

/-- Is `b` a UTF-8 continuation byte? -/
def isContByte (b : Nat) : Bool := 128 ≤ b && b < 192

/-- Is `b` the lead byte of a 2-byte UTF-8 sequence? -/
def isLead2 (b : Nat) : Bool := 192 ≤ b && b < 224

/-- Is `b` the lead byte of a 3-byte UTF-8 sequence? -/
def isLead3 (b : Nat) : Bool := 224 ≤ b && b < 240

/-- Is `b` the lead byte of a 4-byte UTF-8 sequence? -/
def isLead4 (b : Nat) : Bool := 240 ≤ b && b < 248

/-- Character of a 2-byte UTF-8 sequence. -/
def glue2 (b b2 : Nat) : Char := Char.ofNat ((b - 192) * 64 + (b2 - 128))

/-- Character of a 3-byte UTF-8 sequence. -/
def glue3 (b b2 b3 : Nat) : Char :=
  Char.ofNat ((b - 224) * 4096 + (b2 - 128) * 64 + (b3 - 128))

/-- Character of a 4-byte UTF-8 sequence. -/
def glue4 (b b2 b3 b4 : Nat) : Char :=
  Char.ofNat ((b - 240) * 262144 + (b2 - 128) * 4096 + (b3 - 128) * 64 + (b4 - 128))

/-- Second pass of percent-decoding: reassemble UTF-8 sequences from the
decoded bytes.  JS throws `URIError` on malformed sequences; this model
instead keeps the offending byte as a raw character (that branch is never
exercised by the pipeline, which only decodes its own encodings). -/
def utf8Glue : List (Char ⊕ Nat) → List Char
  | [] => []
  | Sum.inl c :: rest => c :: utf8Glue rest
  | Sum.inr b :: Sum.inr b2 :: Sum.inr b3 :: Sum.inr b4 :: rest =>
    if b < 128 then Char.ofNat b :: utf8Glue (Sum.inr b2 :: Sum.inr b3 :: Sum.inr b4 :: rest)
    else if isLead2 b && isContByte b2 then
      glue2 b b2 :: utf8Glue (Sum.inr b3 :: Sum.inr b4 :: rest)
    else if isLead3 b && isContByte b2 && isContByte b3 then
      glue3 b b2 b3 :: utf8Glue (Sum.inr b4 :: rest)
    else if isLead4 b && isContByte b2 && isContByte b3 && isContByte b4 then
      glue4 b b2 b3 b4 :: utf8Glue rest
    else Char.ofNat b :: utf8Glue (Sum.inr b2 :: Sum.inr b3 :: Sum.inr b4 :: rest)
  | Sum.inr b :: Sum.inr b2 :: Sum.inr b3 :: rest =>
    if b < 128 then Char.ofNat b :: utf8Glue (Sum.inr b2 :: Sum.inr b3 :: rest)
    else if isLead2 b && isContByte b2 then glue2 b b2 :: utf8Glue (Sum.inr b3 :: rest)
    else if isLead3 b && isContByte b2 && isContByte b3 then glue3 b b2 b3 :: utf8Glue rest
    else Char.ofNat b :: utf8Glue (Sum.inr b2 :: Sum.inr b3 :: rest)
  | Sum.inr b :: Sum.inr b2 :: rest =>
    if b < 128 then Char.ofNat b :: utf8Glue (Sum.inr b2 :: rest)
    else if isLead2 b && isContByte b2 then glue2 b b2 :: utf8Glue rest
    else Char.ofNat b :: utf8Glue (Sum.inr b2 :: rest)
  | Sum.inr b :: rest => Char.ofNat b :: utf8Glue rest

/-- Model of JS `decodeURIComponent` (see `utf8Glue` for the error branch). -/
def decodeURIComponent (l : List Char) : List Char :=
  utf8Glue (uriTokens l)

/-! ## The generic slugifier

Modelled from the spec: the source imports the external npm package `slug`
(`import slug from 'slug'`), whose code is not part of this repository.
Per spec §4.1 it lower-cases, collapses non-alphanumeric runs to single
hyphens and trims leading/trailing hyphens (ASCII model; transliteration of
diacritics is not exercised by any claim). -/

/-- Characters kept verbatim by the slugifier (after lower-casing). -/
def isSlugKeep (c : Char) : Bool := c.isDigit || ('a' ≤ c && c ≤ 'z')

/-- Collapse consecutive hyphens to one. -/
def collapseHyphens : List Char → List Char
  | [] => []
  | [c] => [c]
  | c1 :: c2 :: rest =>
    if c1 = '-' && c2 = '-' then collapseHyphens (c2 :: rest)
    else c1 :: collapseHyphens (c2 :: rest)

/-- Trim leading and trailing hyphens. -/
def trimHyphens (l : List Char) : List Char :=
  ((l.dropWhile (fun c => c = '-')).reverse.dropWhile (fun c => c = '-')).reverse

/-- Modelled from the spec: generic text slugification performed by the
external `slug` package (lowercase, collapse non-alphanumeric runs to
single hyphens, trim hyphens). -/
def slugify (l : List Char) : List Char :=
  trimHyphens (collapseHyphens ((toLowerL l).map (fun c => if isSlugKeep c then c else '-')))

/-! ## Data model: external Obsidian API surface -/

/-- Model of an Obsidian `TFile`: identified by its vault path. -/
structure TFile where
  path : String
deriving DecidableEq

/-- Last path segment (Obsidian `TFile.name`). -/
def fileNameL (path : List Char) : List Char :=
  ((splitOnChar '/' path).getLast?).getD []

/-- File name without its extension (Obsidian `TFile.basename`). -/
def fileBasenameL (path : List Char) : List Char :=
  let n := fileNameL path
  match n.reverse.dropWhile (fun c => !(c = '.')) with
  | [] => n
  | _ :: restRev => restRev.reverse

/-- Model of the external Obsidian API used by the resolver: the
`metadataCache.getFirstLinkpathDest(linkpath, sourcePath)` primitive. -/
structure App where
  getFirstLinkpathDest : String → String → Option TFile

/-! ## JS `Map` / `Set` models (insertion order, key overwrite) -/

/-- Model of JS `Map.prototype.get`: value of the first (unique) entry with
the given key. -/
def mapGet : List (String × String) → String → Option String
  | [], _ => none
  | (k1, v1) :: rest, k => if k1 = k then some v1 else mapGet rest k

/-- Model of JS `Map.prototype.has`. -/
def mapHasKey : List (String × String) → String → Bool
  | [], _ => false
  | (k1, _) :: rest, k => k1 = k || mapHasKey rest k

/-- In-place overwrite of every entry carrying key `k`
(`m.map (p => p.1 == k ? (k, v) : p)`). -/
def mapOverwrite (k v : String) : List (String × String) → List (String × String)
  | [] => []
  | (k1, v1) :: rest => (if k1 = k then (k, v) else (k1, v1)) :: mapOverwrite k v rest

/-- Model of JS `Map.prototype.set`: overwrite in place if the key exists,
else append. -/
def mapSet (m : List (String × String)) (k v : String) : List (String × String) :=
  if mapHasKey m k then mapOverwrite k v m
  else m ++ [(k, v)]

/-- Model of JS `Set.prototype.add`. -/
def setAdd (s : List String) (x : String) : List String :=
  if s.contains x then s else s ++ [x]

/-! ## The LinkResolver class (src/services/link-resolver.ts) -/

/-- State of the `LinkResolver` class: the Obsidian app handle plus the
three maps rebuilt by `buildPathMappings`. -/
structure LinkResolver where
  app : App
  pathToSlugMap : List (String × String)
  slugToPathMap : List (String × String)
  exportedFiles : List String

/-- `imageExtensions` field of the class. -/
def imageExtensions : List (List Char) :=
  [".png".data, ".jpg".data, ".jpeg".data, ".gif".data, ".svg".data, ".webp".data, ".avif".data]

/-- `videoExtensions` field of the class. -/
def videoExtensions : List (List Char) :=
  [".mp4".data, ".webm".data, ".mov".data, ".m4v".data, ".ogg".data]

/-- `createSluggedPath`: slug every `/`-separated segment, preserving a
terminal `.md` of a segment. -/
def createSluggedPath (filePath : String) : String :=
  let pathParts := splitOnChar '/' filePath.data
  let sluggedParts := pathParts.map (fun part =>
    if endsWithL ".md".data part then
      slugify (part.take (part.length - 3)) ++ ".md".data
    else slugify part)
  ⟨joinSep "/".data sluggedParts⟩

/-- Loop body of `buildPathMappings`: record one file's path, slug and
membership. -/
def buildStep (acc : LinkResolver) (file : TFile) : LinkResolver :=
  let sluggedPath := createSluggedPath file.path
  ⟨acc.app,
    mapSet acc.pathToSlugMap file.path sluggedPath,
    mapSet acc.slugToPathMap sluggedPath file.path,
    setAdd acc.exportedFiles file.path⟩

/-- `buildPathMappings`: clear all three maps, then record every file's
path, slug and membership. -/
def buildPathMappings (rs : LinkResolver) (files : List TFile) : LinkResolver :=
  files.foldl buildStep ⟨rs.app, [], [], []⟩

/-- `getSluggedPath`: cached slug if present, else computed ad hoc.
(JS `map.get(p) || createSluggedPath(p)`: the map only ever stores
`createSluggedPath` values, so the empty-string-falsy case of `||`
coincides with the recomputation.) -/
def getSluggedPath (rs : LinkResolver) (filePath : String) : String :=
  (mapGet rs.pathToSlugMap filePath).getD (createSluggedPath filePath)

/-- `isFileExported`. -/
def isFileExported (rs : LinkResolver) (filePath : String) : Bool :=
  rs.exportedFiles.contains filePath

/-- Result type of `resolveInternalLink`. -/
structure ResolvedLink where
  path : Option String
  subpath : Option String
deriving DecidableEq

/-- Model of `linkText.replace(/^\[\[|\]\]$/g, '')`: remove one leading
`[[` and one trailing `]]` when present. -/
def stripWikiBrackets (s : List Char) : List Char :=
  let s1 := if startsL "[[".data s then s.drop 2 else s
  if endsWithL "]]".data s1 then s1.take (s1.length - 2) else s1

/-- `resolveInternalLink`: strip brackets and alias, split path from
subpath on `#`, delegate to the Obsidian lookup. -/
def resolveInternalLink (rs : LinkResolver) (linkText : String) (sourcePath : String) :
    ResolvedLink :=
  let cleanLinkText := jsTrim (((splitOnChar '|' (stripWikiBrackets linkText.data)).headD []))
  let hashParts := splitOnChar '#' cleanLinkText
  let linkpath := hashParts.headD []
  let subpath : Option (List Char) := hashParts.tail.head?
  match rs.app.getFirstLinkpathDest ⟨jsTrim linkpath⟩ sourcePath with
  | some targetFile => ⟨some targetFile.path, subpath.map (fun sp => (⟨jsTrim sp⟩ : String))⟩
  | none => ⟨none, none⟩

/-- `getRelativePath`: drop `fromPath`'s final segment, find the common
leading-segment prefix, then join `'..'.repeat(upLevels)` with the
remaining `toPath` segments (note: the source repeats the two-character
string `'..'`, not `'../'`). -/
def countCommon : List (List Char) → List (List Char) → Nat
  | a :: as, b :: bs => if a = b then countCommon as bs + 1 else 0
  | _, _ => 0

/-- See `countCommon`; this is `getRelativePath` of the source. -/
def getRelativePath (fromPath toPath : String) : String :=
  let fromParts := (splitOnChar '/' fromPath.data).dropLast
  let toParts := splitOnChar '/' toPath.data
  let commonLength := countCommon fromParts toParts
  let upLevels := fromParts.length - commonLength
  let downPath := toParts.drop commonLength
  let relativeParts := (repeatL "..".data upLevels :: downPath).filter (fun p => !p.isEmpty)
  let joined := joinSep "/".data relativeParts
  if joined.isEmpty then "./" else ⟨joined⟩

/-- Result of `parseEmbedParameters`. -/
structure EmbedParams where
  altText : List Char
  width : Option Int
deriving DecidableEq

/-- Loop body of `parseEmbedParameters`: a `parseInt` value greater than
zero sets the width, otherwise a non-empty parameter sets the alt text. -/
def parseStep (acc : EmbedParams) (param : List Char) : EmbedParams :=
  match parseIntJS param with
  | some n =>
    if n > 0 then ⟨acc.altText, some n⟩
    else if param.length > 0 then ⟨param, acc.width⟩
    else acc
  | none => if param.length > 0 then ⟨param, acc.width⟩ else acc

/-- `parseEmbedParameters`: fold `parseStep` over the parameters; later
parameters overwrite earlier ones. -/
def parseEmbedParameters (params : List (List Char)) : EmbedParams :=
  params.foldl parseStep ⟨[], none⟩

/-- Media classification. -/
inductive MediaType where
  | image
  | video
deriving DecidableEq

/-- `resolveMediaPath`: resolve via the Obsidian lookup, then classify the
resolved file's lower-cased path against the two extension lists. -/
def resolveMediaPath (rs : LinkResolver) (mediaPath : String) (sourcePath : String) :
    Option (TFile × MediaType) :=
  match rs.app.getFirstLinkpathDest mediaPath sourcePath with
  | some file =>
    let lowerPath := toLowerL file.path.data
    if imageExtensions.any (fun ext => endsWithL ext lowerPath) then some (file, MediaType.image)
    else if videoExtensions.any (fun ext => endsWithL ext lowerPath) then
      some (file, MediaType.video)
    else none
  | none => none

/-- `generateImageHtml`. -/
def generateImageHtml (imageFile : TFile) (sourcePath : String) (width : Option Int)
    (altText : List Char) : List Char :=
  let imageName := fileNameL imageFile.path.data
  let relativeImagePath := (getRelativePath sourcePath ⟨"assets/".data ++ imageName⟩).data
  let alt := if altText.isEmpty then fileBasenameL imageFile.path.data else altText
  let attributes := ["src=\"".data ++ relativeImagePath ++ "\"".data,
                     "alt=\"".data ++ alt ++ "\"".data]
  let attributes :=
    match width with
    | some w =>
      if w > 0 then attributes ++ ["style=\"width: ".data ++ (toString w).data ++ "px;\"".data]
      else attributes
    | none => attributes
  "<img ".data ++ joinSep " ".data attributes ++ ">".data

/-- `getVideoMimeType`. -/
def getVideoMimeType (fileName : List Char) : Option (List Char) :=
  let lower := toLowerL fileName
  if endsWithL ".mp4".data lower || endsWithL ".m4v".data lower then some "video/mp4".data
  else if endsWithL ".webm".data lower then some "video/webm".data
  else if endsWithL ".mov".data lower then some "video/quicktime".data
  else if endsWithL ".ogg".data lower then some "video/ogg".data
  else none

/-- `generateVideoHtml`. -/
def generateVideoHtml (videoFile : TFile) (sourcePath : String) (width : Option Int)
    (titleText : List Char) : List Char :=
  let videoName := fileNameL videoFile.path.data
  let relativeVideoPath := (getRelativePath sourcePath ⟨"assets/".data ++ videoName⟩).data
  let attributes := ["controls".data]
  let attributes :=
    if titleText.isEmpty then attributes
    else attributes ++ ["title=\"".data ++ titleText ++ "\"".data]
  let attributes :=
    match width with
    | some w =>
      if w > 0 then attributes ++ ["style=\"width: ".data ++ (toString w).data ++ "px;\"".data]
      else attributes
    | none => attributes
  let sources := "<source src=\"".data ++ relativeVideoPath ++ "\"".data ++
    (match getVideoMimeType videoName with
     | some m => " type=\"".data ++ m ++ "\"".data
     | none => []) ++ ">".data
  "<video ".data ++ joinSep " ".data attributes ++ ">".data ++ sources ++
    "Your browser does not support the video tag.".data ++ "</video>".data

/-- `getExtensionType`: classify a raw path by extension. -/
def getExtensionType (path : List Char) : Option MediaType :=
  let lower := toLowerL path
  if imageExtensions.any (fun ext => endsWithL ext lower) then some MediaType.image
  else if videoExtensions.any (fun ext => endsWithL ext lower) then some MediaType.video
  else none

/-- The image icon characters appearing literally in the source file's
"Media not found" span (the file stores these exact code points). -/
def imageIconChars : List Char :=
  [Char.ofNat 0xF8FF, Char.ofNat 0xFC, Char.ofNat 0xF1, Char.ofNat 0xBA,
   Char.ofNat 0xD4, Char.ofNat 0x220F, Char.ofNat 0xE8]

/-- The video icon characters appearing literally in the source file's
"Media not found" span. -/
def videoIconChars : List Char :=
  [Char.ofNat 0xF8FF, Char.ofNat 0xFC, Char.ofNat 0xE9, Char.ofNat 0xFB,
   Char.ofNat 0xD4, Char.ofNat 0x220F, Char.ofNat 0xE8]

/-- The replacer function of `processMediaEmbedsInMarkdown` applied to the
inner text of one `![[...]]` match. -/
def mediaEmbedRepl (rs : LinkResolver) (sourcePath : String) (embedContent : List Char) :
    List Char :=
  let parts := (splitOnChar '|' embedContent).map jsTrim
  let targetPath := parts.headD []
  let p := parseEmbedParameters parts.tail
  match resolveMediaPath rs ⟨targetPath⟩ sourcePath with
  | some (file, MediaType.image) => generateImageHtml file sourcePath p.width p.altText
  | some (file, MediaType.video) => generateVideoHtml file sourcePath p.width p.altText
  | none =>
    let fallbackType := getExtensionType targetPath
    let icon := match fallbackType with
      | some MediaType.video => videoIconChars
      | _ => imageIconChars
    let cssClass := match fallbackType with
      | some MediaType.video => "broken-video".data
      | _ => "broken-image".data
    "<span class=\"".data ++ cssClass ++ "\" title=\"Media not found: ".data ++ targetPath ++
      "\">".data ++ icon ++ " ".data ++ targetPath ++ "</span>".data

/-- `parts[0].trim()` of the link replacer: the trimmed text before the
first `|` of a wiki-link body. -/
def linkTextOf (linkContent : List Char) : List Char :=
  jsTrim ((splitOnChar '|' linkContent).headD [])

/-- `parts[1]?.trim() || linkText.split('#')[0]` of the link replacer: the
trimmed text between the first and second `|` when present and non-empty
after trimming, else the pre-`#` portion of the trimmed link text. -/
def displayTextOf (linkContent : List Char) : List Char :=
  match (splitOnChar '|' linkContent).tail.head? with
  | some alias0 =>
    let t := jsTrim alias0
    if t.isEmpty then (splitOnChar '#' (linkTextOf linkContent)).headD [] else t
  | none => (splitOnChar '#' (linkTextOf linkContent)).headD []

/-- The href computed for a resolved-and-exported link target: the
target's slug with `.md` replaced by `.html`, the slugified subpath
appended as a `#` fragment when non-empty, relativized against
`sourcePath`. -/
def hrefFor (rs : LinkResolver) (sourcePath : String) (rpath : String)
    (subpath : Option String) : List Char :=
  let sluggedTargetPath := getSluggedPath rs rpath
  let htmlPath :=
    if endsWithL ".md".data sluggedTargetPath.data then
      sluggedTargetPath.data.take (sluggedTargetPath.data.length - 3) ++ ".html".data
    else sluggedTargetPath.data
  let htmlPath :=
    match subpath with
    | some sp =>
      if sp.data.isEmpty then htmlPath else htmlPath ++ "#".data ++ slugify sp.data
    | none => htmlPath
  (getRelativePath sourcePath ⟨htmlPath⟩).data

/-- The replacer function of `processLinksInMarkdown` applied to the inner
text of one `[[...]]` match. -/
def linkRepl (rs : LinkResolver) (sourcePath : String) (linkContent : List Char) : List Char :=
  let linkText := linkTextOf linkContent
  let displayText := displayTextOf linkContent
  let resolved := resolveInternalLink rs ⟨"[[".data ++ linkText ++ "]]".data⟩ sourcePath
  match resolved.path with
  | some rpath =>
    if !(isFileExported rs rpath) then
      "[".data ++ displayText ++ "](obsidian-broken:".data ++ encodeURIComponent linkText ++
        ")".data
    else
      "[".data ++ displayText ++ "](".data ++
        hrefFor rs sourcePath rpath resolved.subpath ++ ")".data
  | none =>
    "[".data ++ displayText ++ "](obsidian-broken:".data ++ encodeURIComponent linkText ++
      ")".data

/-! ## Global regex replacement, embedded as fuel-indexed scanners

JS `str.replace(regex, fn)` with a global regex scans left to right, taking
the leftmost match, emitting `fn` on it and continuing after the match;
non-matching characters are copied verbatim.  The fuel argument (one unit
per scanned position) makes the recursion structural, so that these
functions reduce inside the kernel; `scanR` supplies enough fuel. -/

/-- One scanning pass: at each position try `matchAt`; on a match `(a, rem)`
emit `repl a` and continue at `rem`, else copy one character. -/
def scanF {α : Type} (matchAt : List Char → Option (α × List Char)) (repl : α → List Char) :
    Nat → List Char → List Char
  | 0, l => l
  | _ + 1, [] => []
  | fuel + 1, c :: rest =>
    match matchAt (c :: rest) with
    | some (a, rem) => repl a ++ scanF matchAt repl fuel rem
    | none => c :: scanF matchAt repl fuel rest

/-- `scanF` with enough fuel for the whole input. -/
def scanR {α : Type} (matchAt : List Char → Option (α × List Char)) (repl : α → List Char)
    (l : List Char) : List Char :=
  scanF matchAt repl l.length l

/-- After `[[` (or `![[`): a capture of `([^\]]+)` followed by `]]` — the
greedy non-`]` run must be nonempty and immediately followed by `]]`. -/
def wikiBracketContent (rest : List Char) : Option (List Char × List Char) :=
  match rest.takeWhile (fun c => !(c = ']')), rest.dropWhile (fun c => !(c = ']')) with
  | [], _ => none
  | c :: cs, ']' :: ']' :: rem => some (c :: cs, rem)
  | _ :: _, _ => none

/-- Matcher for the link regex `/\[\[([^\]]+)\]\]/g` at the current position. -/
def matchWikiAt : List Char → Option (List Char × List Char)
  | '[' :: '[' :: rest => wikiBracketContent rest
  | _ => none

/-- Matcher for the embed regex `/!\[\[([^\]]+)\]\]/g` at the current position. -/
def matchEmbedAt : List Char → Option (List Char × List Char)
  | '!' :: '[' :: '[' :: rest => wikiBracketContent rest
  | _ => none

/-- `processMediaEmbedsInMarkdown`. -/
def processMediaEmbedsInMarkdown (rs : LinkResolver) (markdownContent : String)
    (sourcePath : String) : String :=
  ⟨scanR matchEmbedAt (mediaEmbedRepl rs sourcePath) markdownContent.data⟩

/-- `processLinksInMarkdown`: the media-embed pass followed by the text-link
pass. -/
def processLinksInMarkdown (rs : LinkResolver) (markdownContent : String)
    (sourcePath : String) : String :=
  let processedContent := (processMediaEmbedsInMarkdown rs markdownContent sourcePath).data
  ⟨scanR matchWikiAt (linkRepl rs sourcePath) processedContent⟩

/-! ## Dead-link styling (`processDeadLinksInHtml`)

Embedding of `/<a[^>]*href="obsidian-broken:([^"]*)"[^>]*>(.*?)<\/a>/g`:
at a position starting `<a`, the greedy `[^>]*` tries the longest
`'>'`-free gap first, backtracking to earlier occurrences of the literal
`href="obsidian-broken:`; then `([^"]*)` and `[^>]*` are forced (a shorter
take would put a non-matching character before the required `"` or `>`),
and `(.*?)` lazily scans (excluding line terminators, as JS `.` does) to
the nearest `</a>`. -/

/-- The literal part of the dead-link regex after `<a[^>]*`. -/
def htmlBrokenLit : List Char := "href=\"obsidian-broken:".data

/-- All splits `l = a ++ b` in order of increasing `|a|`. -/
def allSplits : List Char → List (List Char × List Char)
  | [] => [([], [])]
  | c :: rest => ([], c :: rest) :: (allSplits rest).map (fun p => (c :: p.1, p.2))

/-- Lazy `(.*?)<\/a>`: shortest line-terminator-free text up to `</a>`
(JS `.` excludes line terminators; modelled as `\n` and `\r` — the
U+2028/U+2029 terminators never arise in this pipeline). -/
def lazyToCloseA : List Char → Option (List Char × List Char)
  | [] => none
  | c :: rest =>
    if startsL "</a>".data (c :: rest) then some ([], rest.drop 3)
    else if c = '\n' || c = '\r' then none
    else
      match lazyToCloseA rest with
      | some (t, rem) => some (c :: t, rem)
      | none => none

/-- Continuation of the dead-link regex after the literal: captures
`([^"]*)`, then `"`, `[^>]*`, `>`, then the lazy inner text up to `</a>`. -/
def tryBrokenTail (b : List Char) : Option ((List Char × List Char) × List Char) :=
  let enc := b.takeWhile (fun c => !(c = '"'))
  match b.dropWhile (fun c => !(c = '"')) with
  | '"' :: afterQ =>
    match afterQ.dropWhile (fun c => !(c = '>')) with
    | '>' :: afterGt =>
      match lazyToCloseA afterGt with
      | some (txt, rem) => some ((enc, txt), rem)
      | none => none
    | _ => none
  | _ => none

/-- First `some` in a list of options. -/
def firstSome {α : Type} : List (Option α) → Option α
  | [] => none
  | some a :: _ => some a
  | none :: rest => firstSome rest

/-- Matcher for the dead-link regex at the current position: captures the
percent-encoded link (`enc`) and the anchor's inner text (`txt`). -/
def matchBrokenAt (l : List Char) : Option ((List Char × List Char) × List Char) :=
  match l with
  | '<' :: 'a' :: rest =>
    let cands := (allSplits rest).filter
      (fun p => !(p.1.contains '>') && startsL htmlBrokenLit p.2)
    firstSome (cands.reverse.map (fun p => tryBrokenTail (p.2.drop htmlBrokenLit.length)))
  | _ => none

/-- The replacer function of `processDeadLinksInHtml` on one match. -/
def deadRepl (cap : List Char × List Char) : List Char :=
  "<span class=\"dead-link\" title=\"Broken link: ".data ++ decodeURIComponent cap.1 ++
    "\">".data ++ cap.2 ++ "</span>".data

/-- `processDeadLinksInHtml`. -/
def processDeadLinksInHtml (htmlContent : String) : String :=
  ⟨scanR matchBrokenAt deadRepl htmlContent.data⟩

/-! ## Scanner equations -/

theorem scanF_congr {α : Type} {matchAt : List Char → Option (α × List Char)}
    {repl : α → List Char}
    (hm : ∀ l a rem, matchAt l = some (a, rem) → rem.length < l.length) :
    ∀ (f1 f2 : Nat) (l : List Char), l.length ≤ f1 → l.length ≤ f2 →
      scanF matchAt repl f1 l = scanF matchAt repl f2 l := by
  intro f1
  induction f1 with
  | zero =>
    intro f2 l h1 _
    have hl : l = [] := by cases l with
      | nil => rfl
      | cons c rest => simp at h1
    subst hl
    cases f2 <;> rfl
  | succ n ih =>
    intro f2 l h1 h2
    cases l with
    | nil => cases f2 <;> rfl
    | cons c rest =>
      cases f2 with
      | zero => simp at h2
      | succ g =>
        cases hmm : matchAt (c :: rest) with
        | none =>
          simp only [scanF, hmm]
          simp only [List.length_cons] at h1 h2
          rw [ih g rest (by omega) (by omega)]
        | some p =>
          obtain ⟨a, rem⟩ := p
          simp only [scanF, hmm]
          have hlt := hm _ _ _ hmm
          simp only [List.length_cons] at h1 h2 hlt
          rw [ih g rem (by omega) (by omega)]

theorem scanR_nil {α : Type} (matchAt : List Char → Option (α × List Char))
    (repl : α → List Char) : scanR matchAt repl [] = [] := rfl

theorem scanR_cons_none {α : Type} {matchAt : List Char → Option (α × List Char)}
    {repl : α → List Char} {c : Char} {rest : List Char}
    (h : matchAt (c :: rest) = none) :
    scanR matchAt repl (c :: rest) = c :: scanR matchAt repl rest := by
  unfold scanR
  simp only [List.length_cons, scanF, h]

theorem scanR_cons_some {α : Type} {matchAt : List Char → Option (α × List Char)}
    {repl : α → List Char} {c : Char} {rest : List Char} {a : α} {rem : List Char}
    (hm : ∀ l a rem, matchAt l = some (a, rem) → rem.length < l.length)
    (h : matchAt (c :: rest) = some (a, rem)) :
    scanR matchAt repl (c :: rest) = repl a ++ scanR matchAt repl rem := by
  unfold scanR
  simp only [List.length_cons, scanF, h]
  congr 1
  have hlt := hm _ _ _ h
  simp only [List.length_cons] at hlt
  exact scanF_congr hm rest.length rem.length rem (by omega) le_rfl

/-! ## Shrink lemmas for the three matchers -/

theorem length_dropWhileL {p : Char → Bool} {l : List Char} :
    (l.dropWhile p).length ≤ l.length := by
  induction l with
  | nil => simp [List.dropWhile]
  | cons c rest ih =>
    by_cases h : p c
    · simp [List.dropWhile, h]; omega
    · simp [List.dropWhile, h]

theorem wikiBracketContent_shrink {rest a rem : List Char}
    (h : wikiBracketContent rest = some (a, rem)) : rem.length + 2 ≤ rest.length := by
  unfold wikiBracketContent at h
  split at h
  · exact absurd h (by simp)
  next c cs rem2 heq1 heq2 =>
    injection h with h1
    injection h1 with ha hb
    subst hb
    have hd : (rest.dropWhile (fun c => !(c = ']'))).length ≤ rest.length :=
      length_dropWhileL
    rw [heq2] at hd
    simp only [List.length_cons] at hd
    omega
  next => exact absurd h (by simp)

theorem matchWikiAt_shrink :
    ∀ (l : List Char) (a rem : List Char), matchWikiAt l = some (a, rem) →
      rem.length < l.length := by
  intro l a rem h
  unfold matchWikiAt at h
  split at h
  next rest =>
    have := wikiBracketContent_shrink h
    simp only [List.length_cons]
    omega
  next => exact absurd h (by simp)

theorem matchEmbedAt_shrink :
    ∀ (l : List Char) (a rem : List Char), matchEmbedAt l = some (a, rem) →
      rem.length < l.length := by
  intro l a rem h
  unfold matchEmbedAt at h
  split at h
  next rest =>
    have := wikiBracketContent_shrink h
    simp only [List.length_cons]
    omega
  next => exact absurd h (by simp)

theorem allSplits_spec {l : List Char} :
    ∀ p ∈ allSplits l, p.1 ++ p.2 = l := by
  induction l with
  | nil => intro p hp; simp [allSplits] at hp; simp [hp]
  | cons c rest ih =>
    intro p hp
    simp only [allSplits, List.mem_cons, List.mem_map] at hp
    rcases hp with h | ⟨q, hq, hpq⟩
    · simp [h]
    · subst hpq; simp [ih q hq]

theorem firstSome_mem {α : Type} {xs : List (Option α)} {a : α}
    (h : firstSome xs = some a) : some a ∈ xs := by
  induction xs with
  | nil => simp [firstSome] at h
  | cons x rest ih =>
    cases x with
    | some b => simp [firstSome] at h; simp [h]
    | none => simp [firstSome] at h; simp [ih h]

theorem lazyToCloseA_shrink :
    ∀ {l t rem : List Char}, lazyToCloseA l = some (t, rem) → rem.length ≤ l.length := by
  intro l
  induction l with
  | nil => intro t rem h; simp [lazyToCloseA] at h
  | cons c rest ih =>
    intro t rem h
    unfold lazyToCloseA at h
    split at h
    · injection h with h1
      obtain ⟨_, hrem⟩ := Prod.mk.inj h1
      subst hrem
      have : (rest.drop 3).length ≤ rest.length := by
        simp [List.length_drop]
      simp only [List.length_cons]
      omega
    · split at h
      · exact absurd h (by simp)
      · split at h
        next t0 rem0 heq =>
          injection h with h1
          obtain ⟨_, hrem⟩ := Prod.mk.inj h1
          subst hrem
          have := ih heq
          simp only [List.length_cons]
          omega
        next => exact absurd h (by simp)

theorem tryBrokenTail_shrink {b : List Char} {cap : List Char × List Char} {rem : List Char}
    (h : tryBrokenTail b = some (cap, rem)) : rem.length ≤ b.length := by
  unfold tryBrokenTail at h
  split at h
  next afterQ heq1 =>
    split at h
    next afterGt heq2 =>
      split at h
      next txt rem0 heq3 =>
        injection h with h1
        obtain ⟨_, hrem⟩ := Prod.mk.inj h1
        subst hrem
        have l3 := lazyToCloseA_shrink heq3
        have l2 : (afterQ.dropWhile (fun c => !(c = '>'))).length ≤ afterQ.length :=
          length_dropWhileL
        rw [heq2] at l2
        have l1 : (b.dropWhile (fun c => !(c = '"'))).length ≤ b.length :=
          length_dropWhileL
        rw [heq1] at l1
        simp only [List.length_cons] at l1 l2
        omega
      next => exact absurd h (by simp)
    next => exact absurd h (by simp)
  next => exact absurd h (by simp)

theorem matchBrokenAt_shrink :
    ∀ (l : List Char) (cap : List Char × List Char) (rem : List Char),
      matchBrokenAt l = some (cap, rem) → rem.length < l.length := by
  intro l cap rem h
  unfold matchBrokenAt at h
  split at h
  next rest =>
    have hmem := firstSome_mem h
    simp only [List.mem_map] at hmem
    obtain ⟨p, hp, htry⟩ := hmem
    have hps : p ∈ (allSplits rest).filter
        (fun p => !(p.1.contains '>') && startsL htmlBrokenLit p.2) := by
      exact (List.mem_reverse).mp hp
    have hsplit := allSplits_spec p (List.mem_of_mem_filter hps)
    have h1 := tryBrokenTail_shrink htry
    have h2 : (p.2.drop htmlBrokenLit.length).length ≤ p.2.length := by
      simp [List.length_drop]
    have h3 : p.2.length ≤ rest.length := by
      have : p.1.length + p.2.length = rest.length := by
        rw [← hsplit]; simp
      omega
    simp only [List.length_cons]
    omega
  next => exact absurd h (by simp)

/-! ## JS Map model lemmas -/

theorem mapOverwrite_cons_self {m : List (String × String)} {k v v1 : String} :
    mapOverwrite k v ((k, v1) :: m) = (k, v) :: mapOverwrite k v m := by
  rw [mapOverwrite, if_pos rfl]

theorem mapOverwrite_cons_ne {m : List (String × String)} {k v k1 v1 : String}
    (h : ¬ k1 = k) :
    mapOverwrite k v ((k1, v1) :: m) = (k1, v1) :: mapOverwrite k v m := by
  rw [mapOverwrite, if_neg h]

theorem mapGet_map_overwrite_self {m : List (String × String)} {k v : String} :
    mapGet (mapOverwrite k v m) k = if mapHasKey m k then some v else none := by
  induction m with
  | nil => rfl
  | cons q m ih =>
    obtain ⟨k1, v1⟩ := q
    by_cases hq : k1 = k
    · subst hq
      rw [mapOverwrite_cons_self]
      simp [mapGet, mapHasKey]
    · rw [mapOverwrite_cons_ne hq]
      simp [mapGet, mapHasKey, hq, ih]

theorem mapGet_map_overwrite_ne {m : List (String × String)} {k v k2 : String}
    (h : k2 ≠ k) :
    mapGet (mapOverwrite k v m) k2 = mapGet m k2 := by
  induction m with
  | nil => rfl
  | cons q m ih =>
    obtain ⟨k1, v1⟩ := q
    by_cases hq : k1 = k
    · subst hq
      rw [mapOverwrite_cons_self]
      simp [mapGet, Ne.symm h, ih]
    · rw [mapOverwrite_cons_ne hq]
      by_cases hq2 : k1 = k2
      · simp [mapGet, hq2]
      · simp [mapGet, hq2, ih]

theorem mapGet_append_single_ne {m : List (String × String)} {k v k2 : String}
    (h : k2 ≠ k) : mapGet (m ++ [(k, v)]) k2 = mapGet m k2 := by
  induction m with
  | nil => simp [mapGet, Ne.symm h]
  | cons q m ih =>
    obtain ⟨k1, v1⟩ := q
    by_cases hq : k1 = k2
    · simp [mapGet, hq]
    · simp [mapGet, hq, ih]

theorem mapGet_append_single_self {m : List (String × String)} {k v : String}
    (h : mapHasKey m k = false) : mapGet (m ++ [(k, v)]) k = some v := by
  induction m with
  | nil => simp [mapGet]
  | cons q m ih =>
    obtain ⟨k1, v1⟩ := q
    simp only [mapHasKey, Bool.or_eq_false_iff, decide_eq_false_iff_not] at h
    simp [mapGet, h.1, ih h.2]

theorem mapGet_set_self (m : List (String × String)) (k v : String) :
    mapGet (mapSet m k v) k = some v := by
  unfold mapSet
  by_cases hhas : mapHasKey m k
  · rw [if_pos hhas, mapGet_map_overwrite_self, if_pos hhas]
  · rw [if_neg hhas]
    exact mapGet_append_single_self (by simpa using hhas)

theorem mapGet_set_ne {m : List (String × String)} {k v k2 : String} (h : k2 ≠ k) :
    mapGet (mapSet m k v) k2 = mapGet m k2 := by
  unfold mapSet
  by_cases hhas : mapHasKey m k
  · rw [if_pos hhas]; exact mapGet_map_overwrite_ne h
  · rw [if_neg hhas]; exact mapGet_append_single_ne h

theorem mapGet_set_isSome {m : List (String × String)} {k v s : String}
    (h : (mapGet m s).isSome) : (mapGet (mapSet m k v) s).isSome := by
  by_cases hs : s = k
  · subst hs; rw [mapGet_set_self]; rfl
  · rw [mapGet_set_ne hs]; exact h

/-! ## Invariants of `buildPathMappings` (for the round-trip property) -/

/-- Both slug maps only ever hold `createSluggedPath` associations. -/
def slugMapsInv (rs : LinkResolver) : Prop :=
  (∀ p v, mapGet rs.pathToSlugMap p = some v → v = createSluggedPath p) ∧
  (∀ s q, mapGet rs.slugToPathMap s = some q → createSluggedPath q = s)

theorem buildStep_inv {acc : LinkResolver} (h : slugMapsInv acc) (f : TFile) :
    slugMapsInv (buildStep acc f) := by
  obtain ⟨h1, h2⟩ := h
  constructor
  · intro p v hv
    by_cases hp : p = f.path
    · subst hp
      rw [show (buildStep acc f).pathToSlugMap =
          mapSet acc.pathToSlugMap f.path (createSluggedPath f.path) from rfl,
        mapGet_set_self] at hv
      exact (Option.some.inj hv).symm
    · rw [show (buildStep acc f).pathToSlugMap =
          mapSet acc.pathToSlugMap f.path (createSluggedPath f.path) from rfl,
        mapGet_set_ne hp] at hv
      exact h1 p v hv
  · intro s q hq
    by_cases hs : s = createSluggedPath f.path
    · subst hs
      rw [show (buildStep acc f).slugToPathMap =
          mapSet acc.slugToPathMap (createSluggedPath f.path) f.path from rfl,
        mapGet_set_self] at hq
      rw [← Option.some.inj hq]
    · rw [show (buildStep acc f).slugToPathMap =
          mapSet acc.slugToPathMap (createSluggedPath f.path) f.path from rfl,
        mapGet_set_ne hs] at hq
      exact h2 s q hq

theorem buildStep_presSome {acc : LinkResolver} {s : String} {f : TFile}
    (h : (mapGet acc.slugToPathMap s).isSome) :
    (mapGet (buildStep acc f).slugToPathMap s).isSome :=
  mapGet_set_isSome h

theorem buildStep_self (acc : LinkResolver) (f : TFile) :
    (mapGet (buildStep acc f).slugToPathMap (createSluggedPath f.path)).isSome := by
  rw [show (buildStep acc f).slugToPathMap =
      mapSet acc.slugToPathMap (createSluggedPath f.path) f.path from rfl,
    mapGet_set_self]
  rfl

theorem foldl_buildStep_inv {files : List TFile} :
    ∀ {acc : LinkResolver}, slugMapsInv acc →
      slugMapsInv (List.foldl buildStep acc files) := by
  induction files with
  | nil => intro acc h; exact h
  | cons f rest ih => intro acc h; exact ih (buildStep_inv h f)

theorem foldl_buildStep_presSome {files : List TFile} {s : String} :
    ∀ {acc : LinkResolver}, (mapGet acc.slugToPathMap s).isSome →
      (mapGet (List.foldl buildStep acc files).slugToPathMap s).isSome := by
  induction files with
  | nil => intro acc h; exact h
  | cons f rest ih => intro acc h; exact ih (buildStep_presSome h)

theorem foldl_buildStep_mem {files : List TFile} {f : TFile} (hf : f ∈ files) :
    ∀ (acc : LinkResolver),
      (mapGet (List.foldl buildStep acc files).slugToPathMap
        (createSluggedPath f.path)).isSome := by
  induction files with
  | nil => exact absurd hf (by simp)
  | cons g rest ih =>
    intro acc
    rcases List.mem_cons.mp hf with h | h
    · subst h
      rw [List.foldl_cons]
      exact foldl_buildStep_presSome (buildStep_self acc f)
    · rw [List.foldl_cons]
      exact ih h (buildStep acc g)

theorem getSluggedPath_of_inv {rs : LinkResolver} (h : slugMapsInv rs) (x : String) :
    getSluggedPath rs x = createSluggedPath x := by
  unfold getSluggedPath
  cases hv : mapGet rs.pathToSlugMap x with
  | none => rfl
  | some v => simpa using h.1 x v hv

/-- C9: for every path `p` in the file list passed to the last
`buildPathMappings` call, mapping `p` forward to its slug, back through the
slug-to-path inverse map (last writer wins on collision), and forward again
yields the same slug — even when two distinct input paths slug to the same
slugged path. -/
theorem buildPathMappings_roundTrip (rs : LinkResolver) (files : List TFile) (p : String)
    (hp : p ∈ files.map TFile.path) :
    ∃ q, mapGet (buildPathMappings rs files).slugToPathMap
          (getSluggedPath (buildPathMappings rs files) p) = some q ∧
        getSluggedPath (buildPathMappings rs files) q =
          getSluggedPath (buildPathMappings rs files) p := by
  obtain ⟨f, hf, hfp⟩ := List.mem_map.mp hp
  unfold buildPathMappings
  have hinv : slugMapsInv (List.foldl buildStep ⟨rs.app, [], [], []⟩ files) := by
    apply foldl_buildStep_inv
    exact ⟨fun p v hv => absurd hv (by simp [mapGet]),
           fun s q hq => absurd hq (by simp [mapGet])⟩
  have hsome := foldl_buildStep_mem hf ⟨rs.app, [], [], []⟩
  rw [hfp] at hsome
  obtain ⟨q, hq⟩ := Option.isSome_iff_exists.mp hsome
  refine ⟨q, ?_, ?_⟩
  · rw [getSluggedPath_of_inv hinv p]
    exact hq
  · rw [getSluggedPath_of_inv hinv q, getSluggedPath_of_inv hinv p]
    exact hinv.2 _ _ hq

/-- Witness for C9 at a concrete colliding file list: both `A b.md` and
`a-b.md` slug to `a-b.md`. -/
theorem buildPathMappings_roundTrip_witness :
    ∃ q, mapGet (buildPathMappings ⟨⟨fun _ _ => none⟩, [], [], []⟩
          [⟨"A b.md"⟩, ⟨"a-b.md"⟩]).slugToPathMap
          (getSluggedPath (buildPathMappings ⟨⟨fun _ _ => none⟩, [], [], []⟩
            [⟨"A b.md"⟩, ⟨"a-b.md"⟩]) "A b.md") = some q ∧
        getSluggedPath (buildPathMappings ⟨⟨fun _ _ => none⟩, [], [], []⟩
            [⟨"A b.md"⟩, ⟨"a-b.md"⟩]) q =
          getSluggedPath (buildPathMappings ⟨⟨fun _ _ => none⟩, [], [], []⟩
            [⟨"A b.md"⟩, ⟨"a-b.md"⟩]) "A b.md" :=
  buildPathMappings_roundTrip ⟨⟨fun _ _ => none⟩, [], [], []⟩
    [⟨"A b.md"⟩, ⟨"a-b.md"⟩] "A b.md" (by decide)

/-! ## C1: the relative path calculator at two or more levels of ascent -/

/-- C1 (code bug): `getRelativePath` is claimed to emit one `../` per
remaining `fromPath` directory segment beyond the common prefix, for
arbitrarily deep nesting.  At two levels of ascent the code instead emits
the single segment `....` (`'..'.repeat(upLevels)` repeats the
two-character string `..` without separators), so from `a/b/c.html` to
`x.html` it returns `..../x.html` instead of `../../x.html`. -/
theorem getRelativePath_deep_nesting_bug :
    getRelativePath "a/b/c.html" "x.html" = "..../x.html" ∧
      getRelativePath "a/b/c.html" "x.html" ≠ "../../x.html" ∧
      getRelativePath "a/b/c.html" "a/x.html" = "../x.html" := by
  refine ⟨rfl, by decide, rfl⟩

/-! ## C2: which path the emitted href is relativized against -/

/-- Fixture for C2: a vault containing `My Dir/a.md` and `My Dir/b.md`,
both exported (the directory name `My Dir` slugs to `my-dir`); the
linkpath `b` resolves to `My Dir/b.md`. -/
def rsMyDir : LinkResolver :=
  buildPathMappings
    ⟨⟨fun lp _ => if lp = "b" then some ⟨"My Dir/b.md"⟩ else none⟩, [], [], []⟩
    [⟨"My Dir/a.md"⟩, ⟨"My Dir/b.md"⟩]

/-- C2 (code bug): the href of a rewritten link is relativized against the
source document's original vault path, not its slugged path.  From
`My Dir/a.md` a link to the exported `My Dir/b.md` (slug `my-dir/b.md`)
is emitted as `[b](../my-dir/b.html)`, although the rendered document is
written at `my-dir/a.html`, from where the claimed (slug-relative)
reference is `b.html`. -/
theorem processLinksInMarkdown_relativizes_vault_path :
    processLinksInMarkdown rsMyDir "[[b]]" "My Dir/a.md" = "[b](../my-dir/b.html)" ∧
      getSluggedPath rsMyDir "My Dir/a.md" = "my-dir/a.md" ∧
      getRelativePath "my-dir/a.md" "my-dir/b.html" = "b.html" := by
  refine ⟨rfl, rfl, rfl⟩

/-! ## Decomposition lemmas for the scanners and the splitter -/

theorem takeWhile_boundary {p : Char → Bool} {a : List Char} {b : Char} {t : List Char}
    (ha : ∀ c ∈ a, p c = true) (hb : p b = false) :
    (a ++ b :: t).takeWhile p = a ∧ (a ++ b :: t).dropWhile p = b :: t := by
  induction a with
  | nil => simp [List.takeWhile, List.dropWhile, hb]
  | cons x xs ih =>
    have hx : p x = true := ha x (by simp)
    have ih2 := ih (fun c hc => ha c (by simp [hc]))
    simp [List.takeWhile, List.dropWhile, hx, ih2.1, ih2.2]

theorem splitOnChar_of_no_sep {sep : Char} {l : List Char}
    (h : ∀ c ∈ l, ¬ c = sep) : splitOnChar sep l = [l] := by
  induction l with
  | nil => rfl
  | cons x xs ih =>
    have hx : ¬ x = sep := h x (by simp)
    have ih2 := ih (fun c hc => h c (by simp [hc]))
    simp [splitOnChar, ih2, hx]

theorem splitOnChar_append_sep {sep : Char} {a rest : List Char}
    (h : ∀ c ∈ a, ¬ c = sep) :
    splitOnChar sep (a ++ sep :: rest) = a :: splitOnChar sep rest := by
  induction a with
  | nil =>
    cases hres : splitOnChar sep rest with
    | nil =>
      exact absurd hres (by
        cases rest with
        | nil => simp [splitOnChar]
        | cons y ys =>
          simp only [splitOnChar]
          cases splitOnChar sep ys <;> by_cases hy : y = sep <;> simp [hy])
    | cons g gs => simp [splitOnChar, hres]
  | cons x xs ih =>
    have hx : ¬ x = sep := h x (by simp)
    have ih2 := ih (fun c hc => h c (by simp [hc]))
    simp only [List.cons_append, splitOnChar, List.append_eq]
    rw [ih2]
    simp [hx]

/-- A one-embed document: `processMediaEmbedsInMarkdown` on
`![[content]]` is exactly the replacer applied to `content`. -/
theorem processMedia_single (rs : LinkResolver) (src : String) (content : List Char)
    (h1 : content ≠ []) (h2 : ∀ c ∈ content, ¬ c = ']') :
    processMediaEmbedsInMarkdown rs ⟨"![[".data ++ content ++ "]]".data⟩ src =
      ⟨mediaEmbedRepl rs src content⟩ := by
  unfold processMediaEmbedsInMarkdown
  have hchars : "![[".data ++ content ++ "]]".data =
      '!' :: '[' :: '[' :: (content ++ ']' :: ']' :: []) := by simp
  have hb := takeWhile_boundary (p := fun c => !(c = ']')) (a := content) (b := ']')
    (t := [']']) (fun c hc => by simp [h2 c hc]) (by simp)
  have hm1 : matchEmbedAt ('!' :: '[' :: '[' :: (content ++ ']' :: ']' :: [])) =
      wikiBracketContent (content ++ ']' :: ']' :: []) := rfl
  have hmatch : matchEmbedAt ('!' :: '[' :: '[' :: (content ++ ']' :: ']' :: [])) =
      some (content, []) := by
    rw [hm1]
    unfold wikiBracketContent
    simp only [hb.1, hb.2]
    cases content with
    | nil => exact absurd rfl h1
    | cons c0 cs => rfl
  rw [hchars, scanR_cons_some matchEmbedAt_shrink hmatch, scanR_nil, List.append_nil]

/-! ## C6 and C10: shape-based classification of embed parameters -/

/-- The claim's width classification of one parameter: its `parseInt`
value when that value is a positive integer. -/
def widthOf (p : List Char) : Option Int :=
  match parseIntJS p with
  | some n => if n > 0 then some n else none
  | none => none

/-- The claim's caption classification of one parameter: non-empty and not
width-shaped. -/
def captionShaped (p : List Char) : Bool :=
  (widthOf p).isNone && !p.isEmpty

theorem parseStep_eq (acc : EmbedParams) (p : List Char) :
    parseStep acc p =
      match widthOf p with
      | some n => ⟨acc.altText, some n⟩
      | none => if p.isEmpty then acc else ⟨p, acc.width⟩ := by
  unfold parseStep widthOf
  cases hp : parseIntJS p with
  | none =>
    cases p <;> simp [List.isEmpty]
  | some n =>
    by_cases hn : n > 0
    · simp [hn]
    · cases p <;> simp [hn, List.isEmpty]

theorem parseEmbed_foldl (params : List (List Char)) :
    ∀ acc : EmbedParams,
      List.foldl parseStep acc params =
        ⟨((params.filter captionShaped).getLast?).getD acc.altText,
         (((params.filterMap widthOf).getLast?).map some).getD acc.width⟩ := by
  induction params with
  | nil => intro acc; rfl
  | cons p rest ih =>
    intro acc
    rw [List.foldl_cons, ih (parseStep acc p), parseStep_eq]
    cases hw : widthOf p with
    | some n =>
      have hcap : captionShaped p = false := by simp [captionShaped, hw]
      simp only [List.filter_cons, hcap, List.filterMap_cons, hw]
      cases hl : (rest.filterMap widthOf).getLast? with
      | none =>
        have : rest.filterMap widthOf = [] := by
          cases hres : rest.filterMap widthOf with
          | nil => rfl
          | cons x xs => rw [hres] at hl; simp [List.getLast?_concat] at hl
        simp [this]
      | some m =>
        cases hres : rest.filterMap widthOf with
        | nil => rw [hres] at hl; simp at hl
        | cons x xs =>
          rw [hres] at hl
          rw [List.getLast?_cons_cons, hl]
          rfl
    | none =>
      by_cases hp : p.isEmpty
      · have hcap : captionShaped p = false := by simp [captionShaped, hp]
        simp only [List.filter_cons, hcap, List.filterMap_cons, hw, if_pos hp]
        rfl
      · have hcap : captionShaped p = true := by simp [captionShaped, hw, hp]
        simp only [List.filter_cons, hcap, List.filterMap_cons, hw, if_neg hp]
        cases hl : (rest.filter captionShaped).getLast? with
        | none =>
          have : rest.filter captionShaped = [] := by
            cases hres : rest.filter captionShaped with
            | nil => rfl
            | cons x xs => rw [hres] at hl; simp [List.getLast?_concat] at hl
          simp [this]
        | some q =>
          cases hres : rest.filter captionShaped with
          | nil => rw [hres] at hl; simp at hl
          | cons x xs =>
            rw [hres] at hl
            simp [List.getLast?_cons_cons, hl]

/-- C6: embed parameters after the target are classified purely by shape —
the width is the `parseInt` value of the last parameter parsing as a
positive integer, the caption/alt text is the last non-empty parameter not
so parsing, and within each class the last parameter wins without error. -/
theorem parseEmbedParameters_by_shape (params : List (List Char)) :
    parseEmbedParameters params =
      ⟨((params.filter captionShaped).getLast?).getD [],
       (params.filterMap widthOf).getLast?⟩ := by
  unfold parseEmbedParameters
  rw [parseEmbed_foldl]
  cases hl : (params.filterMap widthOf).getLast? <;> simp

/-- Fixture for C10 and C7: a vault where `pic.png` resolves to the image
file `pic.png`. -/
def rsPic : LinkResolver :=
  ⟨⟨fun lp _ => if lp = "pic.png" then some ⟨"pic.png"⟩ else none⟩, [], [], []⟩

/-- C10: an embed parameter whose `parseInt` value is zero or negative does
not set the width; being non-empty, it becomes the caption/alt text, and
`![[pic.png|0]]` yields an image tag with alt text `0` and no width
style. -/
theorem parseEmbedParameters_nonpositive (p : List Char) (n : Int)
    (h1 : parseIntJS p = some n) (h2 : n ≤ 0) (h3 : p.isEmpty = false) :
    parseEmbedParameters [p] = ⟨p, none⟩ ∧
      processMediaEmbedsInMarkdown rsPic "![[pic.png|0]]" "note.md" =
        "<img src=\"assets/pic.png\" alt=\"0\">" := by
  constructor
  · unfold parseEmbedParameters
    rw [List.foldl_cons, List.foldl_nil, parseStep_eq]
    have hw : widthOf p = none := by
      unfold widthOf
      rw [h1]
      simp
      omega
    rw [hw]
    simp [h3]
  · rfl

/-- Witness for C10 at the parameter `0`. -/
theorem parseEmbedParameters_nonpositive_witness :
    parseEmbedParameters ["0".data] = ⟨"0".data, none⟩ ∧
      processMediaEmbedsInMarkdown rsPic "![[pic.png|0]]" "note.md" =
        "<img src=\"assets/pic.png\" alt=\"0\">" :=
  parseEmbedParameters_nonpositive "0".data 0 (by decide) (by decide) (by decide)

/-! ## C7: order-independence of embed parameters -/

/-- C7: for an embed of a resolvable exported image with one caption
parameter and one positive-integer parameter, the output is an `img` tag
whose alt attribute is the caption and whose style sets the width in
pixels, and swapping the order of the two parameters yields byte-identical
output. -/
theorem processMediaEmbeds_param_order (rs : LinkResolver) (src : String)
    (target c w : List Char) (f : TFile) (n : Int)
    (hres : rs.app.getFirstLinkpathDest ⟨target⟩ src = some f)
    (hexp : isFileExported rs f.path = true)
    (himg : imageExtensions.any (fun e => endsWithL e (toLowerL f.path.data)) = true)
    (ht1 : target ≠ []) (ht2 : ∀ ch ∈ target, ¬ ch = ']')
    (ht3 : ∀ ch ∈ target, ¬ ch = '|') (ht4 : jsTrim target = target)
    (hc1 : c ≠ []) (hc2 : ∀ ch ∈ c, ¬ ch = ']') (hc3 : ∀ ch ∈ c, ¬ ch = '|')
    (hc4 : jsTrim c = c) (hc5 : widthOf c = none)
    (hw1 : ∀ ch ∈ w, ¬ ch = ']') (hw2 : ∀ ch ∈ w, ¬ ch = '|') (hw3 : jsTrim w = w)
    (hw4 : parseIntJS w = some n) (hw5 : n > 0) :
    processMediaEmbedsInMarkdown rs
        ⟨"![[".data ++ target ++ "|".data ++ c ++ "|".data ++ w ++ "]]".data⟩ src =
      processMediaEmbedsInMarkdown rs
        ⟨"![[".data ++ target ++ "|".data ++ w ++ "|".data ++ c ++ "]]".data⟩ src ∧
    processMediaEmbedsInMarkdown rs
        ⟨"![[".data ++ target ++ "|".data ++ c ++ "|".data ++ w ++ "]]".data⟩ src =
      ⟨"<img src=\"".data ++
        (getRelativePath src ⟨"assets/".data ++ fileNameL f.path.data⟩).data ++
        "\" alt=\"".data ++ c ++ "\" style=\"width: ".data ++ (toString n).data ++
        "px;\"".data ++ ">".data⟩ := by
  have hcne : c.isEmpty = false := by
    cases c with
    | nil => exact absurd rfl hc1
    | cons _ _ => rfl
  have hww : widthOf w = some n := by
    unfold widthOf
    rw [hw4]
    simp [hw5]
  have hpc1 : parseStep ⟨[], none⟩ c = ⟨c, none⟩ := by
    rw [parseStep_eq, hc5]
    simp [hcne]
  have hpc2 : parseStep ⟨c, none⟩ w = ⟨c, some n⟩ := by rw [parseStep_eq, hww]
  have hpw1 : parseStep ⟨[], none⟩ w = ⟨[], some n⟩ := by rw [parseStep_eq, hww]
  have hpw2 : parseStep ⟨[], some n⟩ c = ⟨c, some n⟩ := by
    rw [parseStep_eq, hc5]
    simp [hcne]
  have hrm : resolveMediaPath rs ⟨target⟩ src = some (f, MediaType.image) := by
    unfold resolveMediaPath
    rw [hres]
    simp [himg]
  have hcw : "![[".data ++ target ++ "|".data ++ c ++ "|".data ++ w ++ "]]".data =
      "![[".data ++ (target ++ '|' :: (c ++ '|' :: w)) ++ "]]".data := by simp
  have hwc : "![[".data ++ target ++ "|".data ++ w ++ "|".data ++ c ++ "]]".data =
      "![[".data ++ (target ++ '|' :: (w ++ '|' :: c)) ++ "]]".data := by simp
  have hall1 : ∀ ch ∈ target ++ '|' :: (c ++ '|' :: w), ¬ ch = ']' := by
    intro ch hch
    rcases List.mem_append.mp hch with h | h
    · exact ht2 ch h
    · rcases List.mem_cons.mp h with h | h
      · simp [h]
      · rcases List.mem_append.mp h with h | h
        · exact hc2 ch h
        · rcases List.mem_cons.mp h with h | h
          · simp [h]
          · exact hw1 ch h
  have hall2 : ∀ ch ∈ target ++ '|' :: (w ++ '|' :: c), ¬ ch = ']' := by
    intro ch hch
    rcases List.mem_append.mp hch with h | h
    · exact ht2 ch h
    · rcases List.mem_cons.mp h with h | h
      · simp [h]
      · rcases List.mem_append.mp h with h | h
        · exact hw1 ch h
        · rcases List.mem_cons.mp h with h | h
          · simp [h]
          · exact hc2 ch h
  have hsplit1 : splitOnChar '|' (target ++ '|' :: (c ++ '|' :: w)) = [target, c, w] := by
    rw [splitOnChar_append_sep ht3, splitOnChar_append_sep hc3, splitOnChar_of_no_sep hw2]
  have hsplit2 : splitOnChar '|' (target ++ '|' :: (w ++ '|' :: c)) = [target, w, c] := by
    rw [splitOnChar_append_sep ht3, splitOnChar_append_sep hw2, splitOnChar_of_no_sep hc3]
  have hne1 : target ++ '|' :: (c ++ '|' :: w) ≠ [] := by simp
  have hne2 : target ++ '|' :: (w ++ '|' :: c) ≠ [] := by simp
  have hout1 : mediaEmbedRepl rs src (target ++ '|' :: (c ++ '|' :: w)) =
      generateImageHtml f src (some n) c := by
    unfold mediaEmbedRepl
    rw [hsplit1]
    simp only [List.map_cons, List.map_nil, ht4, hc4, hw3, List.headD, List.tail]
    rw [show parseEmbedParameters [c, w] = ⟨c, some n⟩ by
      unfold parseEmbedParameters
      rw [List.foldl_cons, hpc1, List.foldl_cons, hpc2, List.foldl_nil]]
    rw [hrm]
  have hout2 : mediaEmbedRepl rs src (target ++ '|' :: (w ++ '|' :: c)) =
      generateImageHtml f src (some n) c := by
    unfold mediaEmbedRepl
    rw [hsplit2]
    simp only [List.map_cons, List.map_nil, ht4, hc4, hw3, List.headD, List.tail]
    rw [show parseEmbedParameters [w, c] = ⟨c, some n⟩ by
      unfold parseEmbedParameters
      rw [List.foldl_cons, hpw1, List.foldl_cons, hpw2, List.foldl_nil]]
    rw [hrm]
  have himgfm : generateImageHtml f src (some n) c =
      "<img src=\"".data ++
        (getRelativePath src ⟨"assets/".data ++ fileNameL f.path.data⟩).data ++
        "\" alt=\"".data ++ c ++ "\" style=\"width: ".data ++ (toString n).data ++
        "px;\"".data ++ ">".data := by
    unfold generateImageHtml
    simp [hcne, hw5, joinSep, List.append_assoc]
  constructor
  · rw [hcw, hwc, processMedia_single rs src _ hne1 hall1,
      processMedia_single rs src _ hne2 hall2, hout1, hout2]
  · rw [hcw, processMedia_single rs src _ hne1 hall1, hout1, himgfm]

/-- Fixture for the C7 witness: `pic.png` resolves and is exported. -/
def rsPicExp : LinkResolver :=
  buildPathMappings
    ⟨⟨fun lp _ => if lp = "pic.png" then some ⟨"pic.png"⟩ else none⟩, [], [], []⟩
    [⟨"pic.png"⟩]

/-- Witness for C7 at `![[pic.png|A caption|300]]` / `![[pic.png|300|A caption]]`. -/
theorem processMediaEmbeds_param_order_witness :
    processMediaEmbedsInMarkdown rsPicExp
        ⟨"![[".data ++ "pic.png".data ++ "|".data ++ "A caption".data ++ "|".data ++
          "300".data ++ "]]".data⟩ "note.md" =
      processMediaEmbedsInMarkdown rsPicExp
        ⟨"![[".data ++ "pic.png".data ++ "|".data ++ "300".data ++ "|".data ++
          "A caption".data ++ "]]".data⟩ "note.md" ∧
    processMediaEmbedsInMarkdown rsPicExp
        ⟨"![[".data ++ "pic.png".data ++ "|".data ++ "A caption".data ++ "|".data ++
          "300".data ++ "]]".data⟩ "note.md" =
      ⟨"<img src=\"".data ++
        (getRelativePath "note.md" ⟨"assets/".data ++ fileNameL "pic.png".data⟩).data ++
        "\" alt=\"".data ++ "A caption".data ++ "\" style=\"width: ".data ++
        (toString (300 : Int)).data ++ "px;\"".data ++ ">".data⟩ :=
  processMediaEmbeds_param_order rsPicExp "note.md" "pic.png".data "A caption".data
    "300".data ⟨"pic.png"⟩ 300 (by decide) (by decide) (by decide) (by decide)
    (by decide) (by decide) (by decide) (by decide) (by decide) (by decide)
    (by decide) (by decide) (by decide) (by decide) (by decide) (by decide)
    (by decide)

/-! ## C8: extension-based media classification and the not-found span -/

/-- Fixture for the C8 counterexample: `clip.ogv` resolves to a real file. -/
def rsOgv : LinkResolver :=
  ⟨⟨fun lp _ => if lp = "clip.ogv" then some ⟨"clip.ogv"⟩ else none⟩, [], [], []⟩

/-- C8 counterexample: the claim's video allow-list includes `ogv`, but the
code's `videoExtensions` does not; an embed of `clip.ogv` — which resolves
to a real file — is rendered as the inert "Media not found" span rather
than a video tag. -/
theorem videoExtensions_no_ogv_counterexample :
    rsOgv.app.getFirstLinkpathDest "clip.ogv" "note.md" = some ⟨"clip.ogv"⟩ ∧
      videoExtensions.contains ".ogv".data = false ∧
      processMediaEmbedsInMarkdown rsOgv "![[clip.ogv]]" "note.md" =
        ⟨"<span class=\"broken-image\" title=\"Media not found: clip.ogv\">".data ++
          imageIconChars ++ " clip.ogv</span>".data⟩ := by
  refine ⟨rfl, rfl, rfl⟩

/-- C8 (amended: the video allow-list is mp4/webm/mov/m4v/ogg, without
ogv): media classification is determined purely by case-insensitive
filename extension against the two fixed allow-lists, and every embed whose
target does not resolve, or resolves to a file with an unrecognized
extension, renders as the inert "Media not found" span — never as an img or
video tag. -/
theorem processMediaEmbeds_not_found (rs : LinkResolver) (src : String)
    (target : List Char)
    (h1 : target ≠ []) (h2 : ∀ ch ∈ target, ¬ ch = ']')
    (h3 : ∀ ch ∈ target, ¬ ch = '|') (h4 : jsTrim target = target)
    (h5 : rs.app.getFirstLinkpathDest ⟨target⟩ src = none ∨
      ∃ f, rs.app.getFirstLinkpathDest ⟨target⟩ src = some f ∧
        imageExtensions.any (fun e => endsWithL e (toLowerL f.path.data)) = false ∧
        videoExtensions.any (fun e => endsWithL e (toLowerL f.path.data)) = false) :
    imageExtensions = [".png".data, ".jpg".data, ".jpeg".data, ".gif".data, ".svg".data,
        ".webp".data, ".avif".data] ∧
    videoExtensions = [".mp4".data, ".webm".data, ".mov".data, ".m4v".data, ".ogg".data] ∧
    processMediaEmbedsInMarkdown rs ⟨"![[".data ++ target ++ "]]".data⟩ src =
      ⟨"<span class=\"".data ++
        (match getExtensionType target with
         | some MediaType.video => "broken-video".data
         | _ => "broken-image".data) ++
        "\" title=\"Media not found: ".data ++ target ++ "\">".data ++
        (match getExtensionType target with
         | some MediaType.video => videoIconChars
         | _ => imageIconChars) ++ " ".data ++ target ++ "</span>".data⟩ := by
  refine ⟨rfl, rfl, ?_⟩
  have hrm : resolveMediaPath rs ⟨target⟩ src = none := by
    unfold resolveMediaPath
    rcases h5 with h | ⟨f, hf, hif, hvf⟩
    · rw [h]
    · rw [hf]
      simp [hif, hvf]
  rw [processMedia_single rs src target h1 h2]
  unfold mediaEmbedRepl
  rw [splitOnChar_of_no_sep h3]
  simp only [List.map_cons, List.map_nil, h4, List.headD, List.tail]
  rw [hrm]

/-- Witness for C8 at an unresolved `missing.png` embed. -/
theorem processMediaEmbeds_not_found_witness :
    imageExtensions = [".png".data, ".jpg".data, ".jpeg".data, ".gif".data, ".svg".data,
        ".webp".data, ".avif".data] ∧
    videoExtensions = [".mp4".data, ".webm".data, ".mov".data, ".m4v".data, ".ogg".data] ∧
    processMediaEmbedsInMarkdown ⟨⟨fun _ _ => none⟩, [], [], []⟩
        ⟨"![[".data ++ "missing.png".data ++ "]]".data⟩ "note.md" =
      ⟨"<span class=\"".data ++
        (match getExtensionType "missing.png".data with
         | some MediaType.video => "broken-video".data
         | _ => "broken-image".data) ++
        "\" title=\"Media not found: ".data ++ "missing.png".data ++ "\">".data ++
        (match getExtensionType "missing.png".data with
         | some MediaType.video => videoIconChars
         | _ => imageIconChars) ++ " ".data ++ "missing.png".data ++ "</span>".data⟩ :=
  processMediaEmbeds_not_found ⟨⟨fun _ _ => none⟩, [], [], []⟩ "note.md"
    "missing.png".data (by decide) (by decide) (by decide) (by decide)
    (Or.inl rfl)

/-! ## The one-link bridge for `processLinksInMarkdown` -/

/-- The media pass leaves a string without `!` characters unchanged. -/
theorem scanR_embed_id {repl : List Char → List Char} (l : List Char)
    (h : ∀ c ∈ l, ¬ c = '!') : scanR matchEmbedAt repl l = l := by
  induction l with
  | nil => rfl
  | cons c rest ih =>
    have hm : matchEmbedAt (c :: rest) = none := by
      unfold matchEmbedAt
      split
      next rest2 heq =>
        injection heq with hc _
        exact absurd hc (h c (by simp))
      next => rfl
    rw [scanR_cons_none hm, ih (fun x hx => h x (by simp [hx]))]

/-- A one-link document: `processLinksInMarkdown` on `[[content]]` is
exactly the link replacer applied to `content` (the media pass does not
fire without a `!`). -/
theorem processLinks_single (rs : LinkResolver) (src : String) (content : List Char)
    (h1 : content ≠ []) (h2 : ∀ c ∈ content, ¬ c = ']')
    (h3 : ∀ c ∈ content, ¬ c = '!') :
    processLinksInMarkdown rs ⟨"[[".data ++ content ++ "]]".data⟩ src =
      ⟨linkRepl rs src content⟩ := by
  unfold processLinksInMarkdown processMediaEmbedsInMarkdown
  have hnb : ∀ c ∈ "[[".data ++ content ++ "]]".data, ¬ c = '!' := by
    intro c hc
    rcases List.mem_append.mp hc with hl | hr
    · rcases List.mem_append.mp hl with hll | hlr
      · intro hcc; subst hcc; simp at hll
      · exact h3 c hlr
    · intro hcc; subst hcc; simp at hr
  have hchars : "[[".data ++ content ++ "]]".data =
      '[' :: '[' :: (content ++ ']' :: ']' :: []) := by simp
  have hb := takeWhile_boundary (p := fun c => !(c = ']')) (a := content) (b := ']')
    (t := [']']) (fun c hc => by simp [h2 c hc]) (by simp)
  have hm1 : matchWikiAt ('[' :: '[' :: (content ++ ']' :: ']' :: [])) =
      wikiBracketContent (content ++ ']' :: ']' :: []) := rfl
  have hmatch : matchWikiAt ('[' :: '[' :: (content ++ ']' :: ']' :: [])) =
      some (content, []) := by
    rw [hm1]
    unfold wikiBracketContent
    simp only [hb.1, hb.2]
    cases content with
    | nil => exact absurd rfl h1
    | cons c0 cs => rfl
  show (⟨scanR matchWikiAt (linkRepl rs src)
      (scanR matchEmbedAt (mediaEmbedRepl rs src) ("[[".data ++ content ++ "]]".data))⟩ :
        String) = ⟨linkRepl rs src content⟩
  rw [scanR_embed_id _ hnb, hchars, scanR_cons_some matchWikiAt_shrink hmatch, scanR_nil,
    List.append_nil]

/-! ## C3: the broken-reference marker, identical in both failure modes -/

/-- The broken-reference marker: a fabricated markdown hyperlink whose URL
is the private `obsidian-broken:` scheme carrying the percent-encoded link
text, labelled with the display text. -/
def brokenReferenceMarker (displayText linkText : List Char) : List Char :=
  "[".data ++ displayText ++ "](obsidian-broken:".data ++
    encodeURIComponent linkText ++ ")".data

/-- C3: for a wiki link whose resolution fails, and for one whose
resolution succeeds but whose target is not in the exported set,
`processLinksInMarkdown` emits the broken-reference marker — and the marker
has identical form in both cases (`brokenReferenceMarker` applied to the
respective display and link texts). -/
theorem processLinks_broken_marker (rs : LinkResolver) (src1 src2 : String)
    (c1 c2 : List Char) (p : String)
    (h11 : c1 ≠ []) (h12 : ∀ ch ∈ c1, ¬ ch = ']') (h13 : ∀ ch ∈ c1, ¬ ch = '!')
    (h21 : c2 ≠ []) (h22 : ∀ ch ∈ c2, ¬ ch = ']') (h23 : ∀ ch ∈ c2, ¬ ch = '!')
    (hres1 : (resolveInternalLink rs ⟨"[[".data ++ linkTextOf c1 ++ "]]".data⟩ src1).path =
      none)
    (hres2 : (resolveInternalLink rs ⟨"[[".data ++ linkTextOf c2 ++ "]]".data⟩ src2).path =
      some p)
    (hexp : isFileExported rs p = false) :
    processLinksInMarkdown rs ⟨"[[".data ++ c1 ++ "]]".data⟩ src1 =
      ⟨brokenReferenceMarker (displayTextOf c1) (linkTextOf c1)⟩ ∧
    processLinksInMarkdown rs ⟨"[[".data ++ c2 ++ "]]".data⟩ src2 =
      ⟨brokenReferenceMarker (displayTextOf c2) (linkTextOf c2)⟩ := by
  constructor
  · rw [processLinks_single rs src1 c1 h11 h12 h13]
    simp only [linkRepl, brokenReferenceMarker, hres1]
  · rw [processLinks_single rs src2 c2 h21 h22 h23]
    simp only [linkRepl, brokenReferenceMarker, hres2]
    simp [hexp]

/-- Fixture for the C3 witness: `exists` resolves to `exists.md`, which is
not in the (empty) exported set; `missing` does not resolve. -/
def rsPartial : LinkResolver :=
  ⟨⟨fun lp _ => if lp = "exists" then some ⟨"exists.md"⟩ else none⟩, [], [], []⟩

/-- Witness for C3: `[[missing]]` (unresolved) and `[[exists]]` (resolved
but excluded) both become the same-shaped marker. -/
theorem processLinks_broken_marker_witness :
    processLinksInMarkdown rsPartial ⟨"[[".data ++ "missing".data ++ "]]".data⟩ "s.md" =
      ⟨brokenReferenceMarker (displayTextOf "missing".data) (linkTextOf "missing".data)⟩ ∧
    processLinksInMarkdown rsPartial ⟨"[[".data ++ "exists".data ++ "]]".data⟩ "t.md" =
      ⟨brokenReferenceMarker (displayTextOf "exists".data) (linkTextOf "exists".data)⟩ :=
  processLinks_broken_marker rsPartial "s.md" "t.md" "missing".data "exists".data
    "exists.md" (by decide) (by decide) (by decide) (by decide) (by decide)
    (by decide) (by decide) (by decide) (by decide)

/-! ## C5: the display-text rule -/

/-- Fixture: a resolver in which nothing resolves. -/
def rsNone : LinkResolver := ⟨⟨fun _ _ => none⟩, [], [], []⟩

/-- C5 counterexample: in `[[a|b|c]]` the display text is `b` — the text
between the first and second `|` — not `b|c` (everything after the first
`|`), as the claim states. -/
theorem displayText_between_pipes_counterexample :
    processLinksInMarkdown rsNone "[[a|b|c]]" "s.md" = "[b](obsidian-broken:a)" ∧
      processLinksInMarkdown rsNone "[[a|b|c]]" "s.md" ≠ "[b|c](obsidian-broken:a)" := by
  refine ⟨rfl, by decide⟩

/-- C5 (amended: the display text is the trimmed text between the first and
second `|` when an alias is present and non-empty after trimming; with no
`|`, or an alias that trims to empty, it defaults to the portion of the
trimmed link text before the first `#`): every wiki link is rewritten to a
hyperlink labelled with that display text. -/
theorem processLinks_displayText (rs : LinkResolver) (src : String) (content : List Char)
    (h1 : content ≠ []) (h2 : ∀ ch ∈ content, ¬ ch = ']')
    (h3 : ∀ ch ∈ content, ¬ ch = '!') :
    ∃ href : List Char,
      processLinksInMarkdown rs ⟨"[[".data ++ content ++ "]]".data⟩ src =
        ⟨"[".data ++ displayTextOf content ++ "](".data ++ href ++ ")".data⟩ := by
  rw [processLinks_single rs src content h1 h2 h3]
  simp only [linkRepl]
  cases hp : (resolveInternalLink rs
      ⟨"[[".data ++ linkTextOf content ++ "]]".data⟩ src).path with
  | none =>
    exact ⟨"obsidian-broken:".data ++ encodeURIComponent (linkTextOf content), by
      simp [List.append_assoc]⟩
  | some rpath =>
    by_cases hexp : isFileExported rs rpath
    · refine ⟨hrefFor rs src rpath (resolveInternalLink rs
        ⟨"[[".data ++ linkTextOf content ++ "]]".data⟩ src).subpath, ?_⟩
      simp [hexp]
    · refine ⟨"obsidian-broken:".data ++ encodeURIComponent (linkTextOf content), ?_⟩
      have hexp2 : isFileExported rs rpath = false := by simpa using hexp
      simp [hexp2, List.append_assoc]

/-- Witness for the amended C5 at `[[a|b|c]]`. -/
theorem processLinks_displayText_witness :
    ∃ href : List Char,
      processLinksInMarkdown rsNone ⟨"[[".data ++ "a|b|c".data ++ "]]".data⟩ "s.md" =
        ⟨"[".data ++ displayTextOf "a|b|c".data ++ "](".data ++ href ++ ")".data⟩ :=
  processLinks_displayText rsNone "s.md" "a|b|c".data (by decide) (by decide) (by decide)

/-! ## Infrastructure for C4: prefix/substring characterizations -/

theorem startsL_iff {p l : List Char} :
    startsL p l = true ↔ ∃ t, l = p ++ t := by
  induction p generalizing l with
  | nil => simp [startsL]
  | cons x xs ih =>
    cases l with
    | nil =>
      simp only [startsL, Bool.false_eq_true, false_iff]
      intro ⟨t, ht⟩
      simp at ht
    | cons c cs =>
      simp only [startsL, Bool.and_eq_true, decide_eq_true_eq, ih]
      constructor
      · rintro ⟨hx, t, ht⟩
        exact ⟨t, by simp [hx, ht]⟩
      · rintro ⟨t, ht⟩
        injection ht with h1 h2
        exact ⟨h1.symm, t, h2⟩

theorem startsL_append_self (p t : List Char) : startsL p (p ++ t) = true :=
  startsL_iff.mpr ⟨t, rfl⟩

theorem containsL_of_parts {p a b : List Char} :
    containsL p (a ++ p ++ b) = true := by
  induction a with
  | nil =>
    cases hpb : p ++ b with
    | nil => simp_all [containsL, startsL_iff]
    | cons x xs =>
      simp only [List.nil_append, hpb, containsL]
      rw [← hpb]
      simp [startsL_append_self]
  | cons x xs ih =>
    simp [containsL, List.append_eq, List.append_assoc] at ih ⊢
    simp [ih]

theorem containsL_cons_false {p : List Char} {c : Char} {rest : List Char}
    (h : containsL p (c :: rest) = false) :
    containsL p rest = false ∧ startsL p (c :: rest) = false := by
  unfold containsL at h
  exact ⟨(Bool.or_eq_false_iff.mp h).2, (Bool.or_eq_false_iff.mp h).1⟩

/-- The `obsidian-broken:` scheme as characters. -/
def brokenScheme : List Char := "obsidian-broken:".data

theorem matchBrokenAt_some_contains {l : List Char}
    {x : (List Char × List Char) × List Char}
    (h : matchBrokenAt l = some x) : containsL brokenScheme l = true := by
  unfold matchBrokenAt at h
  split at h
  next rest =>
    have hmem := firstSome_mem h
    simp only [List.mem_map] at hmem
    obtain ⟨p, hp, _⟩ := hmem
    have hps := (List.mem_reverse).mp hp
    have hfilter := List.of_mem_filter hps
    have hsplit := allSplits_spec p (List.mem_of_mem_filter hps)
    have hstart : startsL htmlBrokenLit p.2 = true := by
      simp only [Bool.and_eq_true] at hfilter
      exact hfilter.2
    obtain ⟨t, ht⟩ := startsL_iff.mp hstart
    have hlit : htmlBrokenLit = "href=\"".data ++ brokenScheme := rfl
    have hgoal : ('<' :: 'a' :: rest) =
        ('<' :: 'a' :: p.1 ++ "href=\"".data) ++ brokenScheme ++ t := by
      rw [← hsplit, ht, hlit]
      simp [List.append_assoc]
    rw [hgoal]
    exact containsL_of_parts
  next => exact absurd h (by simp)

/-- `processDeadLinksInHtml`'s scan leaves any scheme-free string
unchanged. -/
theorem deadScan_id (l : List Char) (h : containsL brokenScheme l = false) :
    scanR matchBrokenAt deadRepl l = l := by
  induction l with
  | nil => rfl
  | cons c rest ih =>
    have hm : matchBrokenAt (c :: rest) = none := by
      cases hmm : matchBrokenAt (c :: rest) with
      | none => rfl
      | some x =>
        rw [matchBrokenAt_some_contains hmm] at h
        exact absurd h (by simp)
    rw [scanR_cons_none hm, ih (containsL_cons_false h).1]

theorem matchBrokenAt_some_startsL {l : List Char}
    {x : (List Char × List Char) × List Char}
    (h : matchBrokenAt l = some x) : startsL "<a".data l = true := by
  unfold matchBrokenAt at h
  split at h
  next rest => simp [startsL]
  next => exact absurd h (by simp)

/-- The scan copies verbatim any prefix without `<a` when the rest does not
begin with an `a` completing a dangling `<`. -/
theorem deadScan_skip (pre rest : List Char)
    (hpre : containsL "<a".data pre = false)
    (hhead : ∀ a0 : Char, rest.head? = some a0 → ¬ a0 = 'a') :
    scanR matchBrokenAt deadRepl (pre ++ rest) =
      pre ++ scanR matchBrokenAt deadRepl rest := by
  induction pre with
  | nil => simp
  | cons c pr ih =>
    have hcf := containsL_cons_false hpre
    have hm : matchBrokenAt (c :: (pr ++ rest)) = none := by
      cases hmm : matchBrokenAt (c :: (pr ++ rest)) with
      | none => rfl
      | some x =>
        have hst := matchBrokenAt_some_startsL hmm
        obtain ⟨t, ht⟩ := startsL_iff.mp hst
        have hc : c = '<' := by
          have := congrArg (fun l => l.head?) ht
          simpa using this
        cases pr with
        | nil =>
          cases rest with
          | nil => simp at ht
          | cons r0 rr =>
            have hr : r0 = 'a' := by
              have := congrArg (fun l => l.head?) (congrArg List.tail ht)
              simpa using this
            exact absurd hr (hhead r0 rfl)
        | cons p0 pp =>
          have hp : p0 = 'a' := by
            have := congrArg (fun l => l.head?) (congrArg List.tail ht)
            simpa using this
          have : startsL "<a".data (c :: p0 :: pp) = true := by
            simp [startsL, hc, hp]
          rw [this] at hcf
          exact absurd hcf.2 (by simp)
    rw [List.cons_append, scanR_cons_none hm, ih hcf.1]
    simp

/-! ## Uniqueness of the literal occurrence inside a broken anchor -/

theorem htmlBrokenLit_length : htmlBrokenLit.length = 22 := rfl

theorem htmlBrokenLit_five : htmlBrokenLit[5]? = some '"' := rfl

theorem htmlBrokenLit_quote_unique :
    ∀ j ∈ List.range 22, htmlBrokenLit[j]? = some '"' → j = 5 := by decide

theorem htmlBrokenLit_no_gt :
    ∀ j ∈ List.range 22, ¬ htmlBrokenLit[j]? = some '>' := by decide

/-- In `a ++ (literal ++ t) = literal ++ enc ++ '"' :: '>' :: tail` with
`'>' ∉ a` and `'"' ∉ enc`, the shift `a` must be empty: the occurrence of
the literal `href="obsidian-broken:` found by the regex's greedy
backtracking is unique. -/
theorem anchor_split_empty {a t enc tail : List Char}
    (henc : ∀ ch ∈ enc, ¬ ch = '"')
    (hgt : a.contains '>' = false)
    (heq : a ++ (htmlBrokenLit ++ t) = htmlBrokenLit ++ (enc ++ '"' :: '>' :: tail)) :
    a = [] := by
  by_contra hne
  have hk1 : 1 ≤ a.length := by
    cases a with
    | nil => exact absurd rfl hne
    | cons _ _ => simp
  have hgtm : ¬ '>' ∈ a := by
    intro hmem
    have : a.contains '>' = true := List.elem_iff.mpr hmem
    rw [this] at hgt
    exact absurd hgt (by simp)
  have F1 : ∀ i, i < 22 →
      (a ++ (htmlBrokenLit ++ t))[a.length + i]? = htmlBrokenLit[i]? := by
    intro i hi
    rw [List.getElem?_append_right (by omega : a.length ≤ a.length + i)]
    have h2 : a.length + i - a.length = i := by omega
    rw [h2, List.getElem?_append_left (by rw [htmlBrokenLit_length]; omega)]
  have G1 : (htmlBrokenLit ++ (enc ++ '"' :: '>' :: tail))[22 + enc.length]? =
      some '"' := by
    rw [List.getElem?_append_right (by rw [htmlBrokenLit_length]; omega)]
    rw [show 22 + enc.length - htmlBrokenLit.length = enc.length from by
      rw [htmlBrokenLit_length]; omega]
    rw [List.getElem?_append_right (by omega)]
    simp
  have G2 : (htmlBrokenLit ++ (enc ++ '"' :: '>' :: tail))[23 + enc.length]? =
      some '>' := by
    rw [List.getElem?_append_right (by rw [htmlBrokenLit_length]; omega)]
    rw [show 23 + enc.length - htmlBrokenLit.length = enc.length + 1 from by
      rw [htmlBrokenLit_length]; omega]
    rw [List.getElem?_append_right (by omega)]
    simp [show enc.length + 1 - enc.length = 1 from by omega]
  have G3 : ∀ j, j < 22 →
      (htmlBrokenLit ++ (enc ++ '"' :: '>' :: tail))[j]? = htmlBrokenLit[j]? := by
    intro j hj
    rw [List.getElem?_append_left (by rw [htmlBrokenLit_length]; omega)]
  have G4 : ∀ j, 22 ≤ j → j < 22 + enc.length →
      (htmlBrokenLit ++ (enc ++ '"' :: '>' :: tail))[j]? = enc[j - 22]? := by
    intro j hj1 hj2
    rw [List.getElem?_append_right (by rw [htmlBrokenLit_length]; omega)]
    rw [show j - htmlBrokenLit.length = j - 22 from by rw [htmlBrokenLit_length]]
    rw [List.getElem?_append_left (by omega)]
  have hbound : a.length ≤ 23 + enc.length := by
    by_contra hbig
    have hlt : 23 + enc.length < a.length := by omega
    have hcg := congrArg (fun l => l[23 + enc.length]?) heq
    simp only at hcg
    rw [List.getElem?_append_left hlt, G2] at hcg
    exact hgtm (List.getElem?_mem hcg)
  rcases Nat.lt_or_ge a.length (2 + enc.length) with hke | hke
  · have hcg := congrArg (fun l => l[a.length + 5]?) heq
    simp only at hcg
    rw [F1 5 (by omega), htmlBrokenLit_five] at hcg
    rcases Nat.lt_or_ge (a.length + 5) 22 with h22 | h22
    · rw [G3 _ h22] at hcg
      have h5 := htmlBrokenLit_quote_unique (a.length + 5)
        (List.mem_range.mpr h22) hcg.symm
      omega
    · have hlt2 : a.length + 5 < 22 + enc.length := by omega
      rw [G4 _ h22 hlt2] at hcg
      exact absurd rfl (henc '"' (List.getElem?_mem hcg.symm))
  · have hi : 23 + enc.length - a.length < 22 := by omega
    have hcg := congrArg (fun l => l[a.length + (23 + enc.length - a.length)]?) heq
    simp only at hcg
    rw [F1 _ hi] at hcg
    rw [show a.length + (23 + enc.length - a.length) = 23 + enc.length from by omega,
      G2] at hcg
    exact absurd hcg (htmlBrokenLit_no_gt _ (List.mem_range.mpr hi))

theorem filter_allSplits_first {l : List Char} {P : List Char × List Char → Bool}
    (h0 : P ([], l) = true)
    (hrest : ∀ q ∈ allSplits l, q.1 ≠ [] → P q = false) :
    (allSplits l).filter P = [([], l)] := by
  cases l with
  | nil => simp [allSplits, h0]
  | cons c r =>
    simp only [allSplits, List.filter_cons, h0, if_pos]
    have hnil : ((allSplits r).map (fun p => (c :: p.1, p.2))).filter P = [] := by
      rw [List.filter_eq_nil_iff]
      intro q hq
      simp only [List.mem_map] at hq
      obtain ⟨q0, hq0, hq1⟩ := hq
      have hmem : q ∈ allSplits (c :: r) := by
        simp only [allSplits, List.mem_cons, List.mem_map]
        exact Or.inr ⟨q0, hq0, hq1⟩
      have := hrest q hmem (by rw [← hq1]; simp)
      simp [this]
    rw [hnil]

/-- The filtered candidate list of the dead-link matcher at a broken anchor
contains exactly the intended split (`A = " "`). -/
theorem cands_singleton {enc tail : List Char} (henc : ∀ ch ∈ enc, ¬ ch = '"') :
    ((allSplits (' ' :: (htmlBrokenLit ++ (enc ++ '"' :: '>' :: tail)))).filter
      (fun p => !(p.1.contains '>') && startsL htmlBrokenLit p.2)) =
      [([' '], htmlBrokenLit ++ (enc ++ '"' :: '>' :: tail))] := by
  set M := htmlBrokenLit ++ (enc ++ '"' :: '>' :: tail) with hM
  have hone : allSplits (' ' :: M) =
      ([], ' ' :: M) :: (allSplits M).map (fun p => (' ' :: p.1, p.2)) := rfl
  have hheadv : (!(([] : List Char).contains '>') &&
      startsL htmlBrokenLit (' ' :: M)) = false := rfl
  rw [hone]
  simp only [List.filter_cons, hheadv, Bool.false_eq_true, if_false]
  rw [List.filter_map]
  rw [filter_allSplits_first (l := M) (P := (fun p : List Char × List Char =>
      !(p.1.contains '>') && startsL htmlBrokenLit p.2) ∘
      (fun p : List Char × List Char => (' ' :: p.1, p.2)))]
  · simp
  · simp only [Function.comp_apply, List.contains_cons]
    rw [hM, startsL_append_self]
    rfl
  · intro q hq hne
    have hsplit := allSplits_spec q hq
    by_contra hP
    have hP2 : (!((' ' :: q.1).contains '>') && startsL htmlBrokenLit q.2) = true := by
      cases hcc : (!((' ' :: q.1).contains '>') && startsL htmlBrokenLit q.2) with
      | true => rfl
      | false =>
        refine absurd ?_ hP
        simpa [Function.comp] using hcc
    simp only [Bool.and_eq_true, Bool.not_eq_true', List.contains_cons,
      Bool.or_eq_false_iff] at hP2
    obtain ⟨⟨_, hgt⟩, hstart⟩ := hP2
    obtain ⟨t, ht⟩ := startsL_iff.mp hstart
    have heq2 : q.1 ++ (htmlBrokenLit ++ t) =
        htmlBrokenLit ++ (enc ++ '"' :: '>' :: tail) := by
      rw [← ht, hsplit, hM]
    exact hne (anchor_split_empty henc hgt heq2)

/-- The lazy `(.*?)<\/a>` scan stops exactly at the appended `</a>`. -/
theorem lazyToCloseA_boundary (txt post : List Char)
    (h1 : ∀ c ∈ txt, ¬ c = '\n') (h2 : ∀ c ∈ txt, ¬ c = '\r')
    (h3 : containsL "</a>".data txt = false) :
    lazyToCloseA (txt ++ ("</a>".data ++ post)) = some (txt, post) := by
  induction txt with
  | nil => rfl
  | cons c txtr ih =>
    have hcf := containsL_cons_false h3
    have hns : startsL "</a>".data (c :: (txtr ++ ("</a>".data ++ post))) = false := by
      cases txtr with
      | nil => simp [startsL]
      | cons c2 t2 =>
        cases t2 with
        | nil => simp [startsL]
        | cons c3 t3 =>
          cases t3 with
          | nil => simp [startsL]
          | cons c4 t4 =>
            have e1 : startsL "</a>".data
                (c :: ((c2 :: c3 :: c4 :: t4) ++ ("</a>".data ++ post))) =
                startsL "</a>".data (c :: c2 :: c3 :: c4 :: t4) := by
              simp [startsL]
            rw [e1]
            exact hcf.2
    have hnl : ¬ c = '\n' := h1 c (by simp)
    have hnr : ¬ c = '\r' := h2 c (by simp)
    have ih2 := ih (fun x hx => h1 x (by simp [hx])) (fun x hx => h2 x (by simp [hx]))
      hcf.1
    have hns2 : startsL ['<', '/', 'a', '>']
        (c :: (txtr ++ '<' :: '/' :: 'a' :: '>' :: post)) = false := hns
    have ih3 : lazyToCloseA (txtr ++ '<' :: '/' :: 'a' :: '>' :: post) =
        some (txtr, post) := ih2
    simp only [List.cons_append, lazyToCloseA, List.append_eq, List.nil_append]
    rw [hns2]
    simp [hnl, hnr, ih3]

/-- The dead-link matcher at a broken anchor returns exactly the encoded
link and the inner text, with the scan resuming after `</a>`. -/
theorem matchBrokenAt_anchor {enc txt post : List Char}
    (henc : ∀ ch ∈ enc, ¬ ch = '"')
    (h1 : ∀ ch ∈ txt, ¬ ch = '\n') (h2 : ∀ ch ∈ txt, ¬ ch = '\r')
    (h3 : containsL "</a>".data txt = false) :
    matchBrokenAt ('<' :: 'a' :: ' ' ::
        (htmlBrokenLit ++ (enc ++ '"' :: '>' :: (txt ++ ("</a>".data ++ post))))) =
      some ((enc, txt), post) := by
  have hstep : matchBrokenAt ('<' :: 'a' :: ' ' ::
      (htmlBrokenLit ++ (enc ++ '"' :: '>' :: (txt ++ ("</a>".data ++ post))))) =
      firstSome ((((allSplits (' ' :: (htmlBrokenLit ++
          (enc ++ '"' :: '>' :: (txt ++ ("</a>".data ++ post))))))).filter
        (fun p => !(p.1.contains '>') && startsL htmlBrokenLit p.2)).reverse.map
        (fun p => tryBrokenTail (p.2.drop htmlBrokenLit.length))) := rfl
  rw [hstep, cands_singleton henc]
  simp only [List.reverse_cons, List.reverse_nil, List.nil_append, List.map_cons,
    List.map_nil]
  rw [show (htmlBrokenLit ++ (enc ++ '"' :: '>' :: (txt ++ ("</a>".data ++
      post)))).drop htmlBrokenLit.length = enc ++ '"' :: '>' :: (txt ++ ("</a>".data ++
      post)) from List.drop_left _ _]
  have hb := takeWhile_boundary (p := fun c => !(c = '"')) (a := enc) (b := '"')
    (t := '>' :: (txt ++ ("</a>".data ++ post))) (fun x hx => by simp [henc x hx])
    (by simp)
  unfold tryBrokenTail
  simp only [hb.1, hb.2]
  have hdw : ('>' :: (txt ++ ("</a>".data ++ post))).dropWhile (fun c => !(c = '>')) =
      '>' :: (txt ++ ("</a>".data ++ post)) := rfl
  simp only [hdw, lazyToCloseA_boundary txt post h1 h2 h3]
  rfl

/-- C4: `processDeadLinksInHtml` replaces an anchor tag whose href uses the
private `obsidian-broken:` scheme by a non-interactive span whose title
attribute carries the percent-decoded original link text and whose visible
content is the anchor's inner text, resuming the scan after the anchor; and
it leaves any input without the scheme — in particular every ordinary
anchor — entirely unchanged. -/
theorem processDeadLinks_spec (pre enc txt post s : String)
    (hpre : containsL "<a".data pre.data = false)
    (henc : ∀ ch ∈ enc.data, ¬ ch = '"')
    (htxt1 : ∀ ch ∈ txt.data, ¬ ch = '\n') (htxt2 : ∀ ch ∈ txt.data, ¬ ch = '\r')
    (htxt3 : containsL "</a>".data txt.data = false)
    (hs : containsL brokenScheme s.data = false) :
    processDeadLinksInHtml
        ⟨pre.data ++ "<a href=\"obsidian-broken:".data ++ enc.data ++ "\">".data ++
          txt.data ++ "</a>".data ++ post.data⟩ =
      ⟨pre.data ++ "<span class=\"dead-link\" title=\"Broken link: ".data ++
        decodeURIComponent enc.data ++ "\">".data ++ txt.data ++ "</span>".data ++
        (processDeadLinksInHtml post).data⟩ ∧
    processDeadLinksInHtml s = s := by
  constructor
  · have harr : pre.data ++ "<a href=\"obsidian-broken:".data ++ enc.data ++
        "\">".data ++ txt.data ++ "</a>".data ++ post.data =
        pre.data ++ ('<' :: 'a' :: ' ' :: (htmlBrokenLit ++ (enc.data ++ '"' :: '>' ::
          (txt.data ++ ("</a>".data ++ post.data))))) := by
      simp [htmlBrokenLit, List.append_assoc]
    show (⟨scanR matchBrokenAt deadRepl (pre.data ++ "<a href=\"obsidian-broken:".data ++
        enc.data ++ "\">".data ++ txt.data ++ "</a>".data ++ post.data)⟩ : String) = _
    rw [harr]
    rw [deadScan_skip pre.data _ hpre (by
      intro a0 h
      simp at h
      rw [← h]
      decide)]
    rw [scanR_cons_some matchBrokenAt_shrink
      (matchBrokenAt_anchor henc htxt1 htxt2 htxt3)]
    show (⟨pre.data ++ (deadRepl (enc.data, txt.data) ++
        scanR matchBrokenAt deadRepl post.data)⟩ : String) = _
    simp [deadRepl, processDeadLinksInHtml, List.append_assoc]
  · show (⟨scanR matchBrokenAt deadRepl s.data⟩ : String) = s
    rw [deadScan_id s.data hs]

/-- Witness for C4: one broken anchor between ordinary content, with an
ordinary anchor after it and as the untouched document. -/
theorem processDeadLinks_spec_witness :
    processDeadLinksInHtml
        ⟨"<p>Intro</p>".data ++ "<a href=\"obsidian-broken:".data ++
          "Note%20One".data ++ "\">".data ++ "Note One".data ++ "</a>".data ++
          "<a href=\"ok.html\">fine</a>".data⟩ =
      ⟨"<p>Intro</p>".data ++ "<span class=\"dead-link\" title=\"Broken link: ".data ++
        decodeURIComponent "Note%20One".data ++ "\">".data ++ "Note One".data ++
        "</span>".data ++
        (processDeadLinksInHtml "<a href=\"ok.html\">fine</a>").data⟩ ∧
    processDeadLinksInHtml "<a href=\"ok.html\">fine</a>" =
      "<a href=\"ok.html\">fine</a>" :=
  processDeadLinks_spec "<p>Intro</p>" "Note%20One" "Note One"
    "<a href=\"ok.html\">fine</a>" "<a href=\"ok.html\">fine</a>"
    (by decide) (by decide) (by decide) (by decide) (by decide) (by decide)

end ObsidianHtml
